import Mathlib

/-!
# ABX exchange client (`src/client.cpp`)

A shallow embedding of the protocol core of `ABXExchangeClient`:
`parsePacket`, `receivePackets`, `streamAllPackets`, `requestMissingSequences`,
the export loop of `outputToJsonFile`, and `run`.

Modelling conventions.

* A byte (`char` / `uint8_t`) is a `Fin 256`.
* `int32_t` values are `Int`; conversions from `uint32_t` and the increment of the
  `int32_t` loop counter wrap explicitly (`toInt32`, `wrapInt32`).
* `std::map<int32_t, Packet>` is used by the client only through `find` and
  `operator[]`; it is represented by its lookup function `Int → Option Packet`.
* Loops that the source leaves unbounded take a bound `fuel` on their passes. For
  `receivePackets` the bound is never reached (`receiveLoop_fuel`); the recovery loop
  reports whether it was left (`Recovery.finished`).
* The socket is an explicit state (`Sock`) driven by a description of the remote
  side (`Peer`): what it answers to a request, how it cuts the answer into reads,
  and which calls of `send` / `recv` fail. The remote side closes the connection after
  its answer; once `recv` has returned `0` the socket delivers nothing more.
-/

namespace ABX

/-! ## Data model -/

/-- One octet on the wire. -/
abbrev Byte := Fin 256

/-- The record `ABXExchangeClient::Packet` (lines 148-166). `symbol` is the
`std::string`, as its list of characters. -/
structure Packet where
  symbol : List Byte
  type : Byte
  quantity : Int
  price : Int
  sequence : Int
deriving DecidableEq

/-- The constant `PACKET_SIZE` of `receivePackets` (line 235). -/
def PACKET_SIZE : Nat := 22

/-- Conversion of a `uint32_t` value to `int32_t` (two's complement). -/
def toInt32 (n : Nat) : Int :=
  if n % 4294967296 < 2147483648 then ((n % 4294967296 : Nat) : Int)
  else ((n % 4294967296 : Nat) : Int) - 4294967296

/-- The value of `ntohl(*reinterpret_cast<const uint32_t *>(buffer + off))`: the four
bytes at `off .. off+3` read in network (big-endian) order. -/
def ntohlAt (buffer : List Byte) (off : Nat) : Nat :=
  (buffer.getD off 0).val * 16777216 + (buffer.getD (off + 1) 0).val * 65536
    + (buffer.getD (off + 2) 0).val * 256 + (buffer.getD (off + 3) 0).val

/-- The function `parsePacket` (lines 280-291). The symbol is the C string held by the
zero-initialised five-byte `symbolBuffer` after the `memcpy` of four bytes: assigning it
to the `std::string` stops at the first NUL. Reading past the end of `buffer` is
undefined in the source; here such a byte reads as `0`. -/
def parsePacket (buffer : List Byte) : Packet :=
  let symbolBuffer : List Byte :=
    [buffer.getD 0 0, buffer.getD 1 0, buffer.getD 2 0, buffer.getD 3 0, 0]
  { symbol := symbolBuffer.takeWhile (fun ch => ch ≠ 0)
    type := buffer.getD 4 0
    quantity := toInt32 (ntohlAt buffer 5)
    price := toInt32 (ntohlAt buffer 9)
    sequence := toInt32 (ntohlAt buffer 13) }

/-- The mutable members of `ABXExchangeClient` (lines 181-182). -/
structure Client where
  m_receivedPackets : Int → Option Packet
  m_maxSequence : Int

/-- The client as constructed: empty map, `m_maxSequence = -1`. -/
def Client.init : Client :=
  { m_receivedPackets := fun _ => none, m_maxSequence := -1 }

/-- Lines 272-273: `m_receivedPackets[packet.sequence] = packet;`
`m_maxSequence = std::max(m_maxSequence, packet.sequence);`. -/
def Client.store (c : Client) (packet : Packet) : Client :=
  { m_receivedPackets := fun k => if k = packet.sequence then some packet
                                   else c.m_receivedPackets k
    m_maxSequence := max c.m_maxSequence packet.sequence }

/-! ## Transport -/

/-- The remote side of one connection.

* `socketOk`: whether `createSocket` succeeds (otherwise it throws);
* `connectOk`: whether `connectSocket` succeeds (otherwise it throws);
* `server log request`: the bytes the remote side answers to `request`, `log` being the
  buffers handed to `send` before on this connection;
* `sendPlan`: for the successive calls of `send`, whether the call returns
  `SOCKET_ERROR` (an exhausted plan means success);
* `recvPlan`: for the successive calls of `recv` that find data, `none` for a call
  that returns `SOCKET_ERROR`, `some n` for a call that hands over at most `n` bytes
  (an exhausted plan hands over as much as was asked for). -/
structure Peer where
  socketOk : Bool
  connectOk : Bool
  server : List (List Byte) → List Byte → List Byte
  sendPlan : List Bool
  recvPlan : List (Option Nat)

/-- A connected socket: the remote side, the bytes it has sent that are not yet read, the
buffers handed to `send` so far (in call order, a failed call included), and whether `recv`
has already returned `0` on this socket.

The remote side closes the connection once it has sent its answer: when no unread byte is
left, `recv` returns `0`. That is final for the socket: from then on nothing more arrives
on it, whatever is sent. A remote side that stays silent on an open connection, on which
`recv` would not return, is outside this description. -/
structure Sock where
  server : List (List Byte) → List Byte → List Byte
  sendPlan : List Bool
  recvPlan : List (Option Nat)
  pending : List Byte
  sent : List (List Byte)
  ended : Bool

/-- The socket just after the connection to `p` is made: nothing to read, nothing sent. -/
def newSock (p : Peer) : Sock :=
  { server := p.server, sendPlan := p.sendPlan, recvPlan := p.recvPlan,
    pending := [], sent := [], ended := false }

/-- The call `connectSocket(sock)` (lines 194-213): `none` when it throws. -/
def connectSocket (p : Peer) : Option Sock :=
  if p.connectOk then some (newSock p) else none

/-- The call `send(sock, request, 2, 0)`: the flag is `true` when it returns
`SOCKET_ERROR`. A request that went out on a connection the remote side has not closed is
answered, and the answer is queued behind what is still unread; on a socket on which
`recv` has returned `0` a request gets no answer. -/
def send (s : Sock) (request : List Byte) : Bool × Sock :=
  match s.sendPlan with
  | true :: rest => (true, { s with sendPlan := rest, sent := s.sent ++ [request] })
  | _ => (false, { s with sendPlan := s.sendPlan.tail
                          pending := if s.ended then s.pending
                                     else s.pending ++ s.server s.sent request
                          sent := s.sent ++ [request] })

/-- What one call of `recv` returns: `0` (the remote side closed), `SOCKET_ERROR`, or a
positive count together with the bytes written into the buffer. -/
inductive RecvOutcome where
  | closed
  | error
  | data (chunk : List Byte)

/-- Delivery of at most `n` unread bytes: end-of-data (`recv` returns `0`, the remote side
has closed) when nothing is left unread. -/
def deliver (s : Sock) (n : Nat) (rest : List (Option Nat)) : RecvOutcome × Sock :=
  if s.pending = [] then (RecvOutcome.closed, { s with ended := true })
  else (RecvOutcome.data (s.pending.take n),
        { s with recvPlan := rest, pending := s.pending.drop n })

/-- The call `recv(sock, buffer + totalBytesRead, len, 0)`: it fails, or reports
end-of-data, or delivers between `1` and `len` bytes, as many as the plan of the remote
side allows. -/
def recv (s : Sock) (len : Nat) : RecvOutcome × Sock :=
  match s.recvPlan with
  | none :: rest => (RecvOutcome.error, { s with recvPlan := rest })
  | some n :: rest => deliver s (max 1 (min len n)) rest
  | [] => deliver s len []

/-! ## receivePackets -/

/-- Which exit of the loop of `receivePackets` was taken: the `break` after
`recv` returned `0` (logged as INFO), or the `return` after `SOCKET_ERROR` (logged as
ERROR on `std::cerr`). -/
inductive RecvExit where
  | closed
  | failed
deriving DecidableEq

/-- The outcome of `receivePackets`: the client, the socket, the exit taken and the
packets processed, in the order of their "[DEBUG] Packet Received" lines. -/
structure Received where
  client : Client
  sock : Sock
  exit : RecvExit
  processed : List Packet

/-- The loop of `receivePackets` (lines 239-277). `buffer` holds the bytes
`buffer[0 .. totalBytesRead)`, so `totalBytesRead` is `buffer.length`. Each pass either
leaves the loop or takes at least one byte from the socket; `fuel` bounds the passes. -/
def receiveLoop : Nat → List Byte → Client → Sock → List Packet → Received
  | 0, _, c, s, done => ⟨c, s, RecvExit.closed, done⟩
  | fuel + 1, buffer, c, s, done =>
    match recv s (PACKET_SIZE - buffer.length) with
    | (RecvOutcome.closed, s1) => ⟨c, s1, RecvExit.closed, done⟩
    | (RecvOutcome.error, s1) => ⟨c, s1, RecvExit.failed, done⟩
    | (RecvOutcome.data chunk, s1) =>
      let buffer1 := buffer ++ chunk
      if buffer1.length < PACKET_SIZE then receiveLoop fuel buffer1 c s1 done
      else
        let packet := parsePacket buffer1
        receiveLoop fuel [] (c.store packet) s1 (done ++ [packet])

/-- The function `receivePackets` (lines 233-278). -/
def receivePackets (c : Client) (s : Sock) : Received :=
  receiveLoop (s.pending.length + 1) [] c s []

/-! ## Requests, recovery, export -/

/-- The request of `streamAllPackets` (line 221): `uint8_t request[2] = {1, 0}`. -/
def streamAllRequest : List Byte := [1, 0]

/-- The request built at lines 307-309: `request[0] = 2` and
`request[1] = static_cast<uint8_t>(i & 0xFF)`, the `&` acting on the two's complement
bits of the `int32_t` value `i`. -/
def resendRequest (i : Int) : List Byte :=
  [2, ⟨((i % 4294967296).toNat &&& 255) % 256, Nat.mod_lt _ (by decide)⟩]

/-- The value of an `int32_t` after arithmetic: `++i` leaves `wrapInt32 (i + 1)` in the
loop counter. Signed overflow, undefined in C++, wraps here as on two's complement
hardware. -/
def wrapInt32 (x : Int) : Int := toInt32 (x % 4294967296).toNat

/-- The function `streamAllPackets` (lines 215-231); `none` when `createSocket` or
`connectSocket` throws: the exception leaves the function. The result of `send` is not
looked at. -/
def streamAllPackets (c : Client) (p : Peer) : Option Received :=
  if p.socketOk then
    match connectSocket p with
    | none => none
    | some s => some (receivePackets c (send s streamAllRequest).2)
  else none

/-- State of the recovery loop when it stops: the client, the socket, the values of `i`
for which `send` was called (in call order), and whether the loop was left (`false`
when the bound on the number of passes was reached first). -/
structure Recovery where
  client : Client
  sock : Sock
  asked : List Int
  finished : Bool

/-- The loop of `requestMissingSequences` (lines 302-325), from counter value `i`. The
bound `m_maxSequence` and the map are read anew in every pass. -/
def requestLoop : Nat → Int → Client → Sock → List Int → Recovery
  | 0, _, c, s, asked => ⟨c, s, asked, false⟩
  | fuel + 1, i, c, s, asked =>
    if i ≤ c.m_maxSequence then
      if (c.m_receivedPackets i).isNone then
        match send s (resendRequest i) with
        | (true, s1) => ⟨c, s1, asked ++ [i], true⟩
        | (false, s1) =>
          let r := receivePackets c s1
          requestLoop fuel (wrapInt32 (i + 1)) r.client r.sock (asked ++ [i])
      else requestLoop fuel (wrapInt32 (i + 1)) c s asked
    else ⟨c, s, asked, true⟩

/-- Outcome of `requestMissingSequences`: the client, the buffers handed to `send`, the
counter values they were built for, whether the function ended, and whether it ended by
an exception leaving it. -/
structure Recovered where
  client : Client
  sent : List (List Byte)
  asked : List Int
  finished : Bool
  threw : Bool

/-- The function `requestMissingSequences` (lines 293-333). `createSocket` is called
before the `try` block, so its exception leaves the function; an exception of
`connectSocket` is caught inside the function, which then returns at once. -/
def requestMissingSequences (fuel : Nat) (c : Client) (p : Peer) : Recovered :=
  if p.socketOk then
    match connectSocket p with
    | none => ⟨c, [], [], true, false⟩
    | some s =>
      let r := requestLoop fuel 0 c s []
      ⟨r.client, r.sock.sent, r.asked, r.finished, false⟩
  else ⟨c, [], [], true, true⟩

/-- The loop of `outputToJsonFile` (lines 338-344) with its upper bound as a parameter:
the packets pushed to the JSON array, in order. -/
def exportUpTo (bound : Nat) (c : Client) : List Packet :=
  (List.range (bound + 1)).filterMap (fun (i : Nat) => c.m_receivedPackets (i : Int))

/-- The packets `outputToJsonFile` writes (lines 335-348): `i` runs from `0` to `100000`. -/
def outputToJsonFile (c : Client) : List Packet := exportUpTo 100000 c

/-- How `run` ends. -/
inductive Outcome where
  | aborted
  | unfinished
  | exported (packets : List Packet)

/-- The function `run` (lines 168-176). It is `aborted` when an exception leaves
`streamAllPackets` or `requestMissingSequences`, `unfinished` when the recovery loop does
not end within `fuel` passes. -/
def run (fuel : Nat) (c : Client) (p1 p2 : Peer) : Outcome :=
  match streamAllPackets c p1 with
  | none => Outcome.aborted
  | some r =>
    let q := requestMissingSequences fuel r.client p2
    if q.threw then Outcome.aborted
    else if q.finished then Outcome.exported (outputToJsonFile q.client)
    else Outcome.unfinished

/-- The session of `ExecuteClient` (lines 351-355): a new client, then `run`. -/
def ExecuteClient (fuel : Nat) (p1 p2 : Peer) : Outcome := run fuel Client.init p1 p2

/-! ## Re-encoding (the documented layout, used to state the round trip) -/

/-- The four bytes of the 32-bit two's complement representation of `x`, most
significant first. -/
def encodeInt32BE (x : Int) : List Byte :=
  let n := (x % 4294967296).toNat
  [⟨n / 16777216 % 256, Nat.mod_lt _ (by decide)⟩, ⟨n / 65536 % 256, Nat.mod_lt _ (by decide)⟩,
   ⟨n / 256 % 256, Nat.mod_lt _ (by decide)⟩, ⟨n % 256, Nat.mod_lt _ (by decide)⟩]

/-- The documented record layout (symbol[0:4], side[4:5], quantity[5:9], price[9:13],
sequence[13:17], big-endian integers), written as an encoder; the source has no encoder.
The symbol is a fixed-width field: cut or NUL-padded to four bytes. -/
def encodeByLayout (p : Packet) : List Byte :=
  (p.symbol ++ List.replicate (4 - p.symbol.length) 0).take 4 ++ [p.type]
    ++ encodeInt32BE p.quantity ++ encodeInt32BE p.price ++ encodeInt32BE p.sequence

/-! ## The relation between the map and `m_maxSequence` -/

/-- What the code maintains between the map and `m_maxSequence`: the latter is the
largest element of the keys together with `-1`. -/
def Client.MaxTracksKeys (c : Client) : Prop :=
  -1 ≤ c.m_maxSequence
  ∧ (∀ k, (c.m_receivedPackets k).isSome → k ≤ c.m_maxSequence)
  ∧ (c.m_maxSequence = -1 ∨ (c.m_receivedPackets c.m_maxSequence).isSome)

/-- Every packet of the map sits under its own sequence number (line 272 stores a
packet under `packet.sequence`). -/
def Client.WellKeyed (c : Client) : Prop :=
  ∀ k p, c.m_receivedPackets k = some p → p.sequence = k

/-- The integers `i, i+1, ..., i+n-1` that are not keys of the map, in ascending order. -/
def gapsFrom (c : Client) : Int → Nat → List Int
  | _, 0 => []
  | i, n + 1 => (if (c.m_receivedPackets i).isNone then [i] else []) ++ gapsFrom c (i + 1) n

/-- The client once the recovery loop has run on a fresh connection `s`, `gaps` being
the values it asked for: the answer to the first request, if it is not empty, has been
parsed and stored. -/
def afterFirstAnswer (c : Client) (s : Sock) : List Int → Client
  | [] => c
  | g :: _ =>
    if s.server s.sent (resendRequest g) = [] then c
    else c.store (parsePacket (s.server s.sent (resendRequest g)))

/-- What is asked of the remote side of the recovery connection for the counter value
`j`: whatever it has seen before, its answer to the request for `j` is empty or is one
complete record whose sequence is `j`. -/
def AnswersAtMost (server : List (List Byte) → List Byte → List Byte) (j : Int) : Prop :=
  ∀ log, server log (resendRequest j) = []
    ∨ ((server log (resendRequest j)).length = PACKET_SIZE
        ∧ (parsePacket (server log (resendRequest j))).sequence = j)

/-! ## Sample data -/

/-- A 22-byte record with symbol "ABCD", side 'B', quantity 1, price 2 and the given
sequence bytes. -/
def sampleFrame (s0 s1 s2 s3 : Byte) : List Byte :=
  [65, 66, 67, 68, 66, 0, 0, 0, 1, 0, 0, 0, 2, s0, s1, s2, s3, 0, 0, 0, 0, 0]

/-- A socket with the given unread bytes and read plan, whose remote side answers nothing. -/
def sampleSock (bytes : List Byte) (plan : List (Option Nat)) : Sock :=
  { server := fun _ _ => [], sendPlan := [], recvPlan := plan, pending := bytes, sent := [],
    ended := false }

/-- A remote side that can be connected to, never fails and answers nothing. -/
def quietPeer : Peer :=
  { socketOk := true, connectOk := true, server := fun _ _ => [], sendPlan := [],
    recvPlan := [] }

/-- The client after receiving the one record whose sequence field is `7F FF FF FF`. -/
def topClient : Client :=
  (receivePackets Client.init (sampleSock (sampleFrame 127 255 255 255) [])).client

/-- The client after receiving the records of sequences 0, 1 and 3. -/
def gapClient : Client :=
  (receivePackets Client.init (sampleSock
    (sampleFrame 0 0 0 0 ++ sampleFrame 0 0 0 1 ++ sampleFrame 0 0 0 3) [some 9])).client

/-- The client after receiving the records of sequences `-5` and `100001`. -/
def oddClient : Client :=
  (receivePackets Client.init (sampleSock
    (sampleFrame 255 255 255 251 ++ sampleFrame 0 1 134 161) [])).client

/-- A remote side that answers every request with the given bytes. -/
def streamPeer (bytes : List Byte) (plan : List (Option Nat)) : Peer :=
  { socketOk := true, connectOk := true, server := fun _ _ => bytes, sendPlan := [],
    recvPlan := plan }

/-- A remote side that answers a request with the sample record whose sequence is the
second byte of the request. -/
def resendPeer (plan : List (Option Nat)) : Peer :=
  { socketOk := true, connectOk := true,
    server := fun _ request => sampleFrame 0 0 0 (request.getD 1 0),
    sendPlan := [], recvPlan := plan }

/-- A connected socket on which the next call of `send` fails. -/
def failingSock : Sock :=
  { server := fun _ _ => [], sendPlan := [true], recvPlan := [], pending := [], sent := [],
    ended := false }

/-! ## Facts about `parsePacket` -/

theorem exists_seventeen (b : List Byte) (h : 17 ≤ b.length) :
    ∃ x0 x1 x2 x3 x4 x5 x6 x7 x8 x9 x10 x11 x12 x13 x14 x15 x16 rest,
      b = x0 :: x1 :: x2 :: x3 :: x4 :: x5 :: x6 :: x7 :: x8 :: x9 :: x10 :: x11 :: x12
            :: x13 :: x14 :: x15 :: x16 :: rest := by
  rcases b with _ | ⟨x0, _ | ⟨x1, _ | ⟨x2, _ | ⟨x3, _ | ⟨x4, _ | ⟨x5, _ | ⟨x6, _ | ⟨x7,
    _ | ⟨x8, _ | ⟨x9, _ | ⟨x10, _ | ⟨x11, _ | ⟨x12, _ | ⟨x13, _ | ⟨x14, _ | ⟨x15,
    _ | ⟨x16, rest⟩⟩⟩⟩⟩⟩⟩⟩⟩⟩⟩⟩⟩⟩⟩⟩⟩ <;> simp at h
  exact ⟨x0, x1, x2, x3, x4, x5, x6, x7, x8, x9, x10, x11, x12, x13, x14, x15, x16, rest, rfl⟩

theorem toInt32_eq_bmod (n : Nat) : toInt32 n = Int.bmod (n : Int) 4294967296 := by
  unfold toInt32 Int.bmod
  simp only [Nat.cast_ofNat]
  split_ifs <;> omega

theorem parsePacket_take (b : List Byte) : parsePacket (b.take 17) = parsePacket b := by
  simp [parsePacket, ntohlAt, List.getD_eq_getElem?_getD, List.getElem?_take]

/-- C2. For every block of at least 17 bytes, `parsePacket` returns the packet whose side
is byte 4, whose quantity, price and sequence are bytes 5..8, 9..12 and 13..16 read as
big-endian 32-bit two's complement integers, and whose symbol is computed from bytes 0..3
alone (the characters before the first NUL among them); blocks that agree on their
first 17 bytes give the same packet. -/
theorem parsePacket_layout (b : List Byte) (h : 17 ≤ b.length) :
    (parsePacket b).type = b.get ⟨4, by omega⟩
    ∧ (parsePacket b).quantity
        = Int.bmod ((b.get ⟨5, by omega⟩).val * 2 ^ 24 + (b.get ⟨6, by omega⟩).val * 2 ^ 16
            + (b.get ⟨7, by omega⟩).val * 2 ^ 8 + (b.get ⟨8, by omega⟩).val : Int) (2 ^ 32)
    ∧ (parsePacket b).price
        = Int.bmod ((b.get ⟨9, by omega⟩).val * 2 ^ 24 + (b.get ⟨10, by omega⟩).val * 2 ^ 16
            + (b.get ⟨11, by omega⟩).val * 2 ^ 8 + (b.get ⟨12, by omega⟩).val : Int) (2 ^ 32)
    ∧ (parsePacket b).sequence
        = Int.bmod ((b.get ⟨13, by omega⟩).val * 2 ^ 24 + (b.get ⟨14, by omega⟩).val * 2 ^ 16
            + (b.get ⟨15, by omega⟩).val * 2 ^ 8 + (b.get ⟨16, by omega⟩).val : Int) (2 ^ 32)
    ∧ (parsePacket b).symbol = (b.take 4).takeWhile (fun ch => ch ≠ 0)
    ∧ (∀ b2 : List Byte, b2.take 4 = b.take 4 → (parsePacket b2).symbol = (parsePacket b).symbol)
    ∧ (∀ b2 : List Byte, b2.take 17 = b.take 17 → parsePacket b2 = parsePacket b) := by
  obtain ⟨x0, x1, x2, x3, x4, x5, x6, x7, x8, x9, x10, x11, x12, x13, x14, x15, x16, rest,
    rfl⟩ := exists_seventeen b h
  have sym : ∀ l : List Byte, (parsePacket l).symbol
      = ((l.take 4 ++ [0, 0, 0, 0, 0]).take 5).takeWhile (fun ch => ch ≠ 0) := by
    intro l
    rcases l with _ | ⟨a, _ | ⟨b, _ | ⟨c, _ | ⟨d, l⟩⟩⟩⟩ <;> simp [parsePacket]
  refine ⟨rfl, ?_, ?_, ?_, ?_, ?_, ?_⟩
  · simp only [parsePacket, toInt32_eq_bmod, ntohlAt]; congr 1
  · simp only [parsePacket, toInt32_eq_bmod, ntohlAt]; congr 1
  · simp only [parsePacket, toInt32_eq_bmod, ntohlAt]; congr 1
  · rw [sym]
    by_cases h0 : x0 = 0 <;> by_cases h1 : x1 = 0 <;> by_cases h2 : x2 = 0 <;>
      by_cases h3 : x3 = 0 <;> simp [List.takeWhile, h0, h1, h2, h3]
  · intro b2 hb2
    rw [sym, sym, hb2]
  · intro b2 hb2
    rw [← parsePacket_take b2, hb2, parsePacket_take]

/-- Witness for `parsePacket_layout`: a record of 22 bytes. -/
theorem parsePacket_layout_witness :
    (parsePacket [65, 66, 67, 68, 66, 0, 0, 0, 1, 0, 0, 0, 2, 255, 255, 255, 251,
        9, 9, 9, 9, 9]).sequence = -5 := by
  have h := (parsePacket_layout [65, 66, 67, 68, 66, 0, 0, 0, 1, 0, 0, 0, 2, 255, 255, 255,
    251, 9, 9, 9, 9, 9] (by decide)).2.2.2.1
  rw [h]
  decide

theorem toInt32_emod (n : Nat) (h : n < 4294967296) :
    (toInt32 n % 4294967296).toNat = n := by
  unfold toInt32
  split_ifs <;> omega

theorem encodeInt32BE_toInt32 (a b c d : Byte) :
    encodeInt32BE (toInt32 (a.val * 16777216 + b.val * 65536 + c.val * 256 + d.val))
      = [a, b, c, d] := by
  have ha := a.isLt
  have hb := b.isLt
  have hc := c.isLt
  have hd := d.isLt
  have hn : a.val * 16777216 + b.val * 65536 + c.val * 256 + d.val < 4294967296 := by omega
  simp only [encodeInt32BE, toInt32_emod _ hn]
  refine congrArg₂ _ (Fin.ext ?_) (congrArg₂ _ (Fin.ext ?_) (congrArg₂ _ (Fin.ext ?_)
    (congrArg₂ _ (Fin.ext ?_) rfl))) <;> simp only [] <;> omega

/-- C8 (as stated) fails: a 17-byte block whose symbol field has a NUL before other
characters is not reproduced by re-encoding, and `parsePacket` maps it to the same packet
as a different block, so no encoder can recover it. -/
theorem roundtrip_counterexample :
    ([65, 0, 67, 68, 66, 0, 0, 0, 1, 0, 0, 0, 2, 0, 0, 0, 3] : List Byte).length = 17
    ∧ encodeByLayout (parsePacket [65, 0, 67, 68, 66, 0, 0, 0, 1, 0, 0, 0, 2, 0, 0, 0, 3])
        ≠ [65, 0, 67, 68, 66, 0, 0, 0, 1, 0, 0, 0, 2, 0, 0, 0, 3]
    ∧ ([65, 0, 0, 0, 66, 0, 0, 0, 1, 0, 0, 0, 2, 0, 0, 0, 3] : List Byte)
        ≠ [65, 0, 67, 68, 66, 0, 0, 0, 1, 0, 0, 0, 2, 0, 0, 0, 3]
    ∧ parsePacket [65, 0, 0, 0, 66, 0, 0, 0, 1, 0, 0, 0, 2, 0, 0, 0, 3]
        = parsePacket [65, 0, 67, 68, 66, 0, 0, 0, 1, 0, 0, 0, 2, 0, 0, 0, 3] := by
  decide

/-- C8 (amended). For every 17-byte block in which no character of the symbol field
follows a NUL (NUL occurs in bytes 0..3 only as trailing padding), re-encoding
`parsePacket b` with the documented layout and NUL padding gives back `b`. -/
theorem encode_parse_roundtrip (b : List Byte) (h : b.length = 17)
    (hs : ∀ x ∈ (b.take 4).dropWhile (fun ch => ch ≠ 0), x = 0) :
    encodeByLayout (parsePacket b) = b := by
  obtain ⟨x0, x1, x2, x3, x4, x5, x6, x7, x8, x9, x10, x11, x12, x13, x14, x15, x16, rest,
    rfl⟩ := exists_seventeen b (by omega)
  have hr : rest = [] := by
    simp only [List.length_cons] at h
    exact List.length_eq_zero.mp (by omega)
  subst hr
  have e1 := encodeInt32BE_toInt32 x5 x6 x7 x8
  have e2 := encodeInt32BE_toInt32 x9 x10 x11 x12
  have e3 := encodeInt32BE_toInt32 x13 x14 x15 x16
  have hsym : ((parsePacket [x0, x1, x2, x3, x4, x5, x6, x7, x8, x9, x10, x11, x12, x13, x14,
      x15, x16]).symbol ++ List.replicate
        (4 - (parsePacket [x0, x1, x2, x3, x4, x5, x6, x7, x8, x9, x10, x11, x12, x13, x14,
          x15, x16]).symbol.length) 0).take 4 = [x0, x1, x2, x3] := by
    by_cases h0 : x0 = 0 <;> by_cases h1 : x1 = 0 <;> by_cases h2 : x2 = 0 <;>
      by_cases h3 : x3 = 0 <;>
      simp [parsePacket, List.takeWhile, List.dropWhile, List.replicate, h0, h1, h2, h3] at hs ⊢
  unfold encodeByLayout
  rw [hsym]
  simp only [parsePacket, ntohlAt, List.getD_cons_zero, List.getD_cons_succ, e1, e2, e3]
  rfl

/-- Witness for `encode_parse_roundtrip`: a block whose symbol is NUL-padded. -/
theorem encode_parse_roundtrip_witness :
    encodeByLayout (parsePacket [65, 66, 0, 0, 83, 0, 0, 0, 1, 255, 0, 0, 2, 128, 0, 0, 3])
      = [65, 66, 0, 0, 83, 0, 0, 0, 1, 255, 0, 0, 2, 128, 0, 0, 3] :=
  encode_parse_roundtrip [65, 66, 0, 0, 83, 0, 0, 0, 1, 255, 0, 0, 2, 128, 0, 0, 3]
    rfl (by simp [List.dropWhile])

/-! ## Facts about `recv` and the loop of `receivePackets` -/

theorem recv_fields (s : Sock) (len : Nat) :
    (recv s len).2.server = s.server ∧ (recv s len).2.sent = s.sent
      ∧ (recv s len).2.sendPlan = s.sendPlan := by
  unfold recv deliver
  split <;> (try split) <;> simp

/-- On a socket whose plan holds no failure, `recv` reports end-of-data exactly when
nothing is unread, and otherwise delivers between `1` and `len` of the unread bytes. -/
theorem recv_clean (s : Sock) (len : Nat) (hlen : 1 ≤ len) (hc : none ∉ s.recvPlan) :
    (s.pending = [] ∧ recv s len = (RecvOutcome.closed, { s with ended := true }))
    ∨ (s.pending ≠ [] ∧ ∃ n rest, 1 ≤ n ∧ n ≤ len ∧ none ∉ rest
        ∧ recv s len = (RecvOutcome.data (s.pending.take n),
            { s with recvPlan := rest, pending := s.pending.drop n })) := by
  unfold recv deliver
  rcases hplan : s.recvPlan with _ | ⟨x, rest⟩
  · by_cases hp : s.pending = []
    · left; simp [hp]
    · right
      refine ⟨hp, len, [], hlen, le_refl _, by simp, ?_⟩
      simp [hp]
  · rcases x with _ | n
    · exfalso; apply hc; rw [hplan]; simp
    · have hrest : none ∉ rest := by
        intro h; apply hc; rw [hplan]; exact List.mem_cons_of_mem _ h
      by_cases hp : s.pending = []
      · left; simp [hp]
      · right
        refine ⟨hp, max 1 (min len n), rest, le_max_left _ _, ?_, hrest, ?_⟩
        · exact max_le hlen (min_le_left _ _)
        · simp [hp]

theorem recv_shorter (s : Sock) (len : Nat) (hlen : 1 ≤ len) (chunk : List Byte) (s1 : Sock)
    (h : recv s len = (RecvOutcome.data chunk, s1)) :
    s1.pending.length < s.pending.length := by
  have key : ∀ (n : Nat) (rest : List (Option Nat)), 1 ≤ n →
      deliver s n rest = (RecvOutcome.data chunk, s1) → s1.pending.length < s.pending.length := by
    intro n rest hn hd
    unfold deliver at hd
    by_cases hp : s.pending = []
    · simp [hp] at hd
    · simp only [hp, if_false, Prod.mk.injEq] at hd
      have hpos : 0 < s.pending.length := List.length_pos.mpr hp
      rw [← hd.2]
      simp only [List.length_drop]
      omega
  unfold recv at h
  split at h
  · simp at h
  · exact key _ _ (le_max_left _ _) h
  · exact key _ _ hlen h

/-- The bound on the passes of the loop of `receivePackets` is never reached: any number
of passes above the count of unread bytes gives the same outcome. -/
theorem receiveLoop_fuel : ∀ (fuel1 fuel2 : Nat) (buffer : List Byte) (c : Client) (s : Sock)
    (done : List Packet), buffer.length < PACKET_SIZE →
    s.pending.length < fuel1 → s.pending.length < fuel2 →
    receiveLoop fuel1 buffer c s done = receiveLoop fuel2 buffer c s done := by
  intro fuel1
  induction fuel1 with
  | zero => intro fuel2 buffer c s done _ h; omega
  | succ fuel1 ih =>
    intro fuel2 buffer c s done hb h1 h2
    obtain ⟨fuel2, rfl⟩ := Nat.exists_eq_succ_of_ne_zero (Nat.pos_iff_ne_zero.mp (by omega : 0 < fuel2))
    have hlen : 1 ≤ PACKET_SIZE - buffer.length := by omega
    rcases hr : recv s (PACKET_SIZE - buffer.length) with ⟨out, s1⟩
    rcases out with _ | _ | chunk
    · simp only [receiveLoop, hr]
    · simp only [receiveLoop, hr]
    · have hs := recv_shorter s _ hlen chunk s1 hr
      simp only [receiveLoop, hr]
      split_ifs with hlt
      · exact ih fuel2 _ c s1 done hlt (by omega) (by omega)
      · exact ih fuel2 _ _ s1 _ (by decide) (by omega) (by omega)

theorem length_flatten_frames (frames : List (List Byte))
    (hf : ∀ f ∈ frames, f.length = PACKET_SIZE) :
    frames.flatten.length = PACKET_SIZE * frames.length := by
  induction frames with
  | nil => simp
  | cons f fs ih =>
    have h1 := hf f (List.mem_cons_self _ _)
    have h2 := ih (fun g hg => hf g (List.mem_cons_of_mem _ hg))
    simp only [List.flatten_cons, List.length_append, List.length_cons, h1, h2]
    ring

/-- The loop of `receivePackets` on a socket without failures whose unread bytes,
after what the buffer already holds, are complete records followed by fewer bytes than one
record: every record is parsed and stored, the trailing bytes are left out, and the loop
ends on end-of-data. -/
theorem receiveLoop_frames : ∀ (fuel : Nat) (frames : List (List Byte)) (tail buffer : List Byte)
    (c : Client) (s : Sock) (done : List Packet),
    (∀ f ∈ frames, f.length = PACKET_SIZE) → tail.length < PACKET_SIZE →
    buffer.length < PACKET_SIZE → none ∉ s.recvPlan →
    buffer ++ s.pending = frames.flatten ++ tail → s.pending.length < fuel →
    ∃ rest, none ∉ rest ∧ receiveLoop fuel buffer c s done
      = ⟨(frames.map parsePacket).foldl Client.store c,
          { s with recvPlan := rest, pending := [], ended := true }, RecvExit.closed,
          done ++ frames.map parsePacket⟩ := by
  intro fuel
  induction fuel with
  | zero => intro frames tail buffer c s done _ _ _ _ _ h; omega
  | succ fuel ih =>
    intro frames tail buffer c s done hf ht hb hc heq hfuel
    have hlen : 1 ≤ PACKET_SIZE - buffer.length := by omega
    rcases recv_clean s (PACKET_SIZE - buffer.length) hlen hc with ⟨hp, hr⟩ | ⟨hp, n, rest, hn1, hn2, hrest, hr⟩
    · -- end-of-data
      have hfr : frames = [] := by
        rcases frames with _ | ⟨f, fs⟩
        · rfl
        · exfalso
          have h1 := length_flatten_frames (f :: fs) hf
          have h2 := congrArg List.length heq
          simp only [hp, List.append_nil, List.length_append, h1, List.length_cons] at h2
          have h3 : PACKET_SIZE * (fs.length + 1) = PACKET_SIZE * fs.length + PACKET_SIZE := by ring
          omega
      subst hfr
      refine ⟨s.recvPlan, hc, ?_⟩
      simp only [receiveLoop, hr, List.map_nil, List.foldl_nil, List.append_nil]
      cases s
      simp_all
    · -- some bytes arrive
      have hpl : 0 < s.pending.length := List.length_pos.mpr hp
      have htl : (s.pending.take n).length = min n s.pending.length := List.length_take _ _
      have hdl : (s.pending.drop n).length = s.pending.length - n := List.length_drop _ _
      by_cases hlt : (buffer ++ s.pending.take n).length < PACKET_SIZE
      · obtain ⟨rest2, hrest2, h2⟩ := ih frames tail (buffer ++ s.pending.take n) c
          { s with recvPlan := rest, pending := s.pending.drop n } done hf ht hlt hrest
          (by simp only [List.append_assoc, List.take_append_drop]; exact heq)
          (by simp only [hdl]; omega)
        refine ⟨rest2, hrest2, ?_⟩
        simp only [receiveLoop, hr, if_pos hlt]
        exact h2
      · have hfull : (buffer ++ s.pending.take n).length = PACKET_SIZE := by
          simp only [List.length_append, htl] at hlt ⊢
          omega
        have heq2 : (buffer ++ s.pending.take n) ++ s.pending.drop n = frames.flatten ++ tail := by
          simp only [List.append_assoc, List.take_append_drop]; exact heq
        rcases frames with _ | ⟨f, fs⟩
        · exfalso
          have h2 := congrArg List.length heq2
          simp only [List.flatten_nil, List.nil_append, List.length_append] at h2
          simp only [List.length_append] at hfull
          omega
        · have hfl : f.length = PACKET_SIZE := hf f (List.mem_cons_self _ _)
          have heq3 : (buffer ++ s.pending.take n) ++ s.pending.drop n
              = f ++ (fs.flatten ++ tail) := by
            rw [heq2, List.flatten_cons, List.append_assoc]
          obtain ⟨e1, e2⟩ := List.append_inj heq3 (by rw [hfull, hfl])
          obtain ⟨rest2, hrest2, h2⟩ := ih fs tail [] (c.store (parsePacket f))
            { s with recvPlan := rest, pending := s.pending.drop n } (done ++ [parsePacket f])
            (fun g hg => hf g (List.mem_cons_of_mem _ hg)) ht (by decide) hrest
            (by simpa using e2) (by simp only [hdl]; omega)
          refine ⟨rest2, hrest2, ?_⟩
          simp only [receiveLoop, hr, if_neg hlt]
          rw [e1, h2]
          simp

theorem receivePackets_frames (frames : List (List Byte)) (tail : List Byte) (c : Client)
    (s : Sock) (hf : ∀ f ∈ frames, f.length = PACKET_SIZE) (ht : tail.length < PACKET_SIZE)
    (hs : s.pending = frames.flatten ++ tail) (hc : none ∉ s.recvPlan) :
    ∃ rest, none ∉ rest ∧ receivePackets c s
      = ⟨(frames.map parsePacket).foldl Client.store c,
          { s with recvPlan := rest, pending := [], ended := true }, RecvExit.closed,
          frames.map parsePacket⟩ := by
  obtain ⟨rest, h1, h2⟩ := receiveLoop_frames (s.pending.length + 1) frames tail [] c s []
    hf ht (by decide) hc (by simpa using hs) (Nat.lt_succ_self _)
  exact ⟨rest, h1, by simpa [receivePackets] using h2⟩

/-- A plan entry `some n` within the bounds makes `recv` deliver exactly the next `n`
unread bytes: every cutting of the stream into reads of at least one and at most the
requested number of bytes is the behaviour of some plan. -/
theorem recv_exact (s : Sock) (len n : Nat) (rest : List (Option Nat)) (h1 : 1 ≤ n)
    (h2 : n ≤ len) (h3 : n ≤ s.pending.length) (hp : s.recvPlan = some n :: rest) :
    recv s len = (RecvOutcome.data (s.pending.take n),
      { s with recvPlan := rest, pending := s.pending.drop n })
    ∧ (s.pending.take n).length = n := by
  have hne : s.pending ≠ [] := by
    intro h; rw [h] at h3; simp at h3; omega
  have hm : max 1 (min len n) = n := by
    rw [min_eq_right h2, max_eq_right h1]
  refine ⟨?_, by simp [h3]⟩
  unfold recv deliver
  rw [hp]
  simp [hne, hm]

/-- C1. When the unread stream is the concatenation of `N` complete records (of the
width `PACKET_SIZE` the receiver uses) and no read fails, `receivePackets` processes
exactly `N` packets, the k-th being `parsePacket` of the k-th record, stores them in
that order and ends on end-of-data, whatever the cutting of the stream into reads; two
transports carrying the same stream give the same packets and the same store. -/
theorem receivePackets_chunking (frames : List (List Byte)) (c : Client) (s : Sock)
    (hf : ∀ f ∈ frames, f.length = PACKET_SIZE) (hs : s.pending = frames.flatten)
    (hc : none ∉ s.recvPlan) :
    (receivePackets c s).processed = frames.map parsePacket
    ∧ (receivePackets c s).processed.length = frames.length
    ∧ (receivePackets c s).client = (frames.map parsePacket).foldl Client.store c
    ∧ (receivePackets c s).exit = RecvExit.closed
    ∧ ∀ s2 : Sock, s2.pending = s.pending → none ∉ s2.recvPlan →
        (receivePackets c s2).processed = (receivePackets c s).processed
        ∧ (receivePackets c s2).client = (receivePackets c s).client := by
  obtain ⟨rest, _, h⟩ := receivePackets_frames frames [] c s hf (by decide) (by simpa using hs) hc
  refine ⟨by rw [h], by rw [h]; simp, by rw [h], by rw [h], ?_⟩
  intro s2 hs2 hc2
  obtain ⟨rest2, _, h2⟩ := receivePackets_frames frames [] c s2 hf (by decide)
    (by simpa [hs2] using hs) hc2
  rw [h, h2]
  exact ⟨rfl, rfl⟩

/-- Witness for `receivePackets_chunking`: two records delivered in reads of 5, 40, 0
and then unbounded size. -/
theorem receivePackets_chunking_witness :
    (receivePackets Client.init
        (sampleSock (sampleFrame 0 0 0 7 ++ sampleFrame 0 0 1 0) [some 5, some 40, some 0])).processed
      = [parsePacket (sampleFrame 0 0 0 7), parsePacket (sampleFrame 0 0 1 0)] :=
  (receivePackets_chunking [sampleFrame 0 0 0 7, sampleFrame 0 0 1 0] Client.init
    (sampleSock (sampleFrame 0 0 0 7 ++ sampleFrame 0 0 1 0) [some 5, some 40, some 0])
    (by decide) (by decide) (by decide)).1

/-- C7 (as stated) fails: one complete record followed by two dangling bytes and
end-of-data. `receivePackets` leaves through the ordinary end-of-data exit, exactly as
for the same stream without the two bytes: no error is raised and the bytes are gone. -/
theorem truncated_counterexample :
    (receivePackets Client.init
        (sampleSock (sampleFrame 0 0 0 7 ++ [65, 66]) [])).exit = RecvExit.closed
    ∧ (receivePackets Client.init (sampleSock (sampleFrame 0 0 0 7 ++ [65, 66]) [])).exit
        = (receivePackets Client.init (sampleSock (sampleFrame 0 0 0 7) [])).exit
    ∧ (receivePackets Client.init
        (sampleSock (sampleFrame 0 0 0 7 ++ [65, 66]) [])).processed
        = [parsePacket (sampleFrame 0 0 0 7)]
    ∧ (receivePackets Client.init
        (sampleSock (sampleFrame 0 0 0 7 ++ [65, 66]) [])).sock.pending = [] := by
  decide

/-- C7 (amended). When the response is `k` complete records followed by a dangling part
of a record and end-of-data, and no read fails, `receivePackets` ends through the
end-of-data exit (no error is signalled), has read and dropped the trailing bytes, and
has processed and stored exactly the packets of the `k` complete records. -/
theorem receivePackets_dangling (frames : List (List Byte)) (tail : List Byte) (c : Client)
    (s : Sock) (hf : ∀ f ∈ frames, f.length = PACKET_SIZE) (_ht1 : 1 ≤ tail.length)
    (ht2 : tail.length < PACKET_SIZE) (hs : s.pending = frames.flatten ++ tail)
    (hc : none ∉ s.recvPlan) :
    (receivePackets c s).exit = RecvExit.closed
    ∧ (receivePackets c s).sock.pending = []
    ∧ (receivePackets c s).processed = frames.map parsePacket
    ∧ (receivePackets c s).client = (frames.map parsePacket).foldl Client.store c := by
  obtain ⟨rest, _, h⟩ := receivePackets_frames frames tail c s hf ht2 hs hc
  rw [h]
  exact ⟨rfl, rfl, rfl, rfl⟩

/-- Witness for `receivePackets_dangling`: one record and three more bytes. -/
theorem receivePackets_dangling_witness :
    (receivePackets Client.init
        (sampleSock (sampleFrame 0 0 0 7 ++ [1, 2, 3]) [some 4])).processed
      = [parsePacket (sampleFrame 0 0 0 7)] :=
  (receivePackets_dangling [sampleFrame 0 0 0 7] [1, 2, 3] Client.init
    (sampleSock (sampleFrame 0 0 0 7 ++ [1, 2, 3]) [some 4])
    (by decide) (by decide) (by decide) (by decide) (by decide)).2.2.1

/-! ## Facts that hold for every transport -/

/-- Whatever the transport does, `receivePackets` only stores parsed packets, one after
the other, and leaves the log and the plans of `send` alone. -/
theorem receiveLoop_general : ∀ (fuel : Nat) (buffer : List Byte) (c : Client) (s : Sock)
    (done : List Packet),
    ∃ ps, (receiveLoop fuel buffer c s done).processed = done ++ ps
      ∧ (receiveLoop fuel buffer c s done).client = ps.foldl Client.store c
      ∧ (∀ p ∈ ps, ∃ b, p = parsePacket b)
      ∧ (receiveLoop fuel buffer c s done).sock.server = s.server
      ∧ (receiveLoop fuel buffer c s done).sock.sent = s.sent
      ∧ (receiveLoop fuel buffer c s done).sock.sendPlan = s.sendPlan := by
  intro fuel
  induction fuel with
  | zero => intro buffer c s done; exact ⟨[], by simp [receiveLoop]⟩
  | succ fuel ih =>
    intro buffer c s done
    obtain ⟨f1, f2, f3⟩ := recv_fields s (PACKET_SIZE - buffer.length)
    rcases hr : recv s (PACKET_SIZE - buffer.length) with ⟨out, s1⟩
    rw [hr] at f1 f2 f3
    simp only at f1 f2 f3
    rcases out with _ | _ | chunk
    · exact ⟨[], by simp [receiveLoop, hr, f1, f2, f3]⟩
    · exact ⟨[], by simp [receiveLoop, hr, f1, f2, f3]⟩
    · by_cases hlt : (buffer ++ chunk).length < PACKET_SIZE
      · obtain ⟨ps, h1, h2, h3, h4, h5, h6⟩ := ih (buffer ++ chunk) c s1 done
        refine ⟨ps, ?_⟩
        simp only [receiveLoop, hr, if_pos hlt]
        exact ⟨h1, h2, h3, h4.trans f1, h5.trans f2, h6.trans f3⟩
      · obtain ⟨ps, h1, h2, h3, h4, h5, h6⟩ := ih [] (c.store (parsePacket (buffer ++ chunk))) s1
          (done ++ [parsePacket (buffer ++ chunk)])
        refine ⟨parsePacket (buffer ++ chunk) :: ps, ?_⟩
        simp only [receiveLoop, hr, if_neg hlt]
        refine ⟨by rw [h1]; simp, by rw [h2]; rfl, ?_, h4.trans f1, h5.trans f2, h6.trans f3⟩
        intro p hp
        rcases List.mem_cons.mp hp with rfl | hp
        · exact ⟨_, rfl⟩
        · exact h3 p hp

theorem store_present (c : Client) (p : Packet) (k : Int)
    (h : (c.m_receivedPackets k).isSome) : ((c.store p).m_receivedPackets k).isSome := by
  unfold Client.store
  simp only
  split_ifs <;> simp [h]

theorem foldl_store_present (ps : List Packet) : ∀ (c : Client) (k : Int),
    (c.m_receivedPackets k).isSome → ((ps.foldl Client.store c).m_receivedPackets k).isSome := by
  induction ps with
  | nil => intro c k h; exact h
  | cons p ps ih => intro c k h; exact ih (c.store p) k (store_present c p k h)

theorem store_maxTracksKeys (c : Client) (p : Packet) (h : c.MaxTracksKeys) :
    (c.store p).MaxTracksKeys := by
  obtain ⟨h1, h2, h3⟩ := h
  refine ⟨le_trans h1 (le_max_left _ _), ?_, ?_⟩
  · intro k hk
    simp only [Client.store] at hk ⊢
    by_cases hkp : k = p.sequence
    · rw [hkp]; exact le_max_right _ _
    · rw [if_neg hkp] at hk
      exact le_trans (h2 k hk) (le_max_left _ _)
  · simp only [Client.store]
    by_cases hle : c.m_maxSequence ≤ p.sequence
    · right; rw [max_eq_right hle]; simp
    · rw [max_eq_left (le_of_not_le hle)]
      rcases h3 with h3 | h3
      · left; exact h3
      · right
        split_ifs
        · simp
        · exact h3

theorem foldl_store_maxTracksKeys (ps : List Packet) : ∀ (c : Client),
    c.MaxTracksKeys → (ps.foldl Client.store c).MaxTracksKeys := by
  induction ps with
  | nil => intro c h; exact h
  | cons p ps ih => intro c h; exact ih (c.store p) (store_maxTracksKeys c p h)

theorem receivePackets_maxTracksKeys (c : Client) (s : Sock) (h : c.MaxTracksKeys) :
    (receivePackets c s).client.MaxTracksKeys := by
  obtain ⟨ps, _, h2, _⟩ := receiveLoop_general (s.pending.length + 1) [] c s []
  unfold receivePackets
  rw [h2]
  exact foldl_store_maxTracksKeys ps c h

theorem receivePackets_present (c : Client) (s : Sock) (k : Int)
    (h : (c.m_receivedPackets k).isSome) :
    ((receivePackets c s).client.m_receivedPackets k).isSome := by
  obtain ⟨ps, _, h2, _⟩ := receiveLoop_general (s.pending.length + 1) [] c s []
  unfold receivePackets
  rw [h2]
  exact foldl_store_present ps c k h

/-- C5 (as stated) fails: after one record whose sequence field is `FF FF FF FB` (that
is `-5`), the map holds the key `-5` and is not empty, yet `m_maxSequence` is `-1`, which
is not a key of the map. -/
theorem maxSequence_counterexample :
    ((receivePackets Client.init
        (sampleSock (sampleFrame 255 255 255 251) [])).client.m_receivedPackets (-5)).isSome
    ∧ (receivePackets Client.init
        (sampleSock (sampleFrame 255 255 255 251) [])).client.m_maxSequence = -1
    ∧ (receivePackets Client.init
        (sampleSock (sampleFrame 255 255 255 251) [])).client.m_receivedPackets (-1) = none := by
  decide

/-- C5 (amended). After any number of calls of `receivePackets` from the initial state,
on any transports, `m_maxSequence` is the largest element of the set made of `-1` and of
the keys of the map: it is at least `-1`, no key exceeds it, and it is `-1` or a key. -/
theorem maxSequence_tracks_keys (socks : List Sock) :
    -1 ≤ (socks.foldl (fun c s => (receivePackets c s).client) Client.init).m_maxSequence
    ∧ (∀ k, ((socks.foldl (fun c s => (receivePackets c s).client)
          Client.init).m_receivedPackets k).isSome →
        k ≤ (socks.foldl (fun c s => (receivePackets c s).client) Client.init).m_maxSequence)
    ∧ ((socks.foldl (fun c s => (receivePackets c s).client) Client.init).m_maxSequence = -1
        ∨ ((socks.foldl (fun c s => (receivePackets c s).client) Client.init).m_receivedPackets
            (socks.foldl (fun c s => (receivePackets c s).client)
              Client.init).m_maxSequence).isSome) := by
  have key : ∀ (l : List Sock) (c : Client), c.MaxTracksKeys →
      (l.foldl (fun c s => (receivePackets c s).client) c).MaxTracksKeys := by
    intro l
    induction l with
    | nil => intro c h; exact h
    | cons s l ih => intro c h; exact ih _ (receivePackets_maxTracksKeys c s h)
  exact key socks Client.init ⟨le_refl _, by simp [Client.init], Or.inl rfl⟩

/-! ## Facts about the requests and the recovery loop -/

theorem resendRequest_eq (N : Int) :
    resendRequest N = [2, ⟨(N % 256).toNat, by omega⟩] := by
  unfold resendRequest
  have h := Nat.and_pow_two_sub_one_eq_mod (N % 4294967296).toNat 8
  norm_num at h
  refine congrArg₂ _ rfl (congrArg₂ _ (Fin.ext ?_) rfl)
  simp only [h]
  omega

theorem send_sent (s : Sock) (request : List Byte) :
    (send s request).2.sent = s.sent ++ [request] ∧ (send s request).2.server = s.server := by
  unfold send
  split <;> simp

theorem receivePackets_sock (c : Client) (s : Sock) :
    (receivePackets c s).sock.server = s.server ∧ (receivePackets c s).sock.sent = s.sent
      ∧ (receivePackets c s).sock.sendPlan = s.sendPlan := by
  obtain ⟨ps, _, _, _, h4, h5, h6⟩ := receiveLoop_general (s.pending.length + 1) [] c s []
  exact ⟨h4, h5, h6⟩

/-- The buffers handed to `send` by the recovery loop are the requests built for the
counter values recorded in `asked`, in the same order. -/
theorem requestLoop_log : ∀ (fuel : Nat) (i : Int) (c : Client) (s : Sock) (asked : List Int),
    ∃ L, (requestLoop fuel i c s asked).asked = asked ++ L
      ∧ (requestLoop fuel i c s asked).sock.sent = s.sent ++ L.map resendRequest := by
  intro fuel
  induction fuel with
  | zero => intro i c s asked; exact ⟨[], by simp [requestLoop]⟩
  | succ fuel ih =>
    intro i c s asked
    unfold requestLoop
    by_cases h1 : i ≤ c.m_maxSequence
    · by_cases h2 : (c.m_receivedPackets i).isNone = true
      · simp only [if_pos h1, h2, if_true]
        obtain ⟨e1, _⟩ := send_sent s (resendRequest i)
        rcases hs : send s (resendRequest i) with ⟨failed, s1⟩
        rw [hs] at e1
        simp only at e1
        rcases failed with _ | _
        · obtain ⟨L, h3, h4⟩ := ih (wrapInt32 (i + 1)) (receivePackets c s1).client
            (receivePackets c s1).sock (asked ++ [i])
          refine ⟨i :: L, ?_⟩
          simp only [h3, h4, (receivePackets_sock c s1).2.1, e1]
          simp
        · exact ⟨[i], by simp [e1]⟩
      · simp only [if_pos h1, h2]
        exact ih _ c s asked
    · simp only [if_neg h1]
      exact ⟨[], by simp⟩

/-- A property of the client that every call of `receivePackets` keeps is kept by the
recovery loop, however far it runs. -/
theorem requestLoop_keeps (P : Client → Prop)
    (hP : ∀ (c : Client) (s : Sock), P c → P (receivePackets c s).client) :
    ∀ (fuel : Nat) (i : Int) (c : Client) (s : Sock) (asked : List Int),
      P c → P (requestLoop fuel i c s asked).client := by
  intro fuel
  induction fuel with
  | zero => intro i c s asked h; exact h
  | succ fuel ih =>
    intro i c s asked h
    unfold requestLoop
    by_cases h1 : i ≤ c.m_maxSequence
    · by_cases h2 : (c.m_receivedPackets i).isNone = true
      · simp only [if_pos h1, h2, if_true]
        rcases send s (resendRequest i) with ⟨failed, s1⟩
        rcases failed with _ | _
        · exact ih _ _ _ _ (hP c s1 h)
        · exact h
      · simp only [if_pos h1, h2]
        exact ih _ c s asked h
    · simp only [if_neg h1]
      exact h

theorem requestMissingSequences_keeps (P : Client → Prop)
    (hP : ∀ (c : Client) (s : Sock), P c → P (receivePackets c s).client)
    (fuel : Nat) (c : Client) (p : Peer) (h : P c) :
    P (requestMissingSequences fuel c p).client := by
  unfold requestMissingSequences
  split_ifs
  · rcases connectSocket p with _ | s
    · exact h
    · exact requestLoop_keeps P hP fuel 0 c s [] h
  · exact h

theorem requestMissingSequences_sent (fuel : Nat) (c : Client) (p : Peer) :
    (requestMissingSequences fuel c p).sent
      = (requestMissingSequences fuel c p).asked.map resendRequest := by
  unfold requestMissingSequences
  by_cases hk : p.socketOk = true
  · by_cases hc : p.connectOk = true
    · simp only [hk, connectSocket, hc, if_true]
      obtain ⟨L, h1, h2⟩ := requestLoop_log fuel 0 c (newSock p) []
      rw [h1, h2]
      simp [newSock]
    · simp [hk, connectSocket, hc]
  · simp [hk]

/-- C9. Every buffer `requestMissingSequences` hands to `send` is the request built for
the counter value `N` it was called for, and that request is the two bytes
`[2, N mod 256]`; its second byte equals `N` exactly when `0 ≤ N ≤ 255`, and two counter
values that differ by a multiple of 256 give the same request. The only buffer
`streamAllPackets` hands to `send` is `[1, 0]`. -/
theorem request_bytes :
    (∀ (fuel : Nat) (c : Client) (p : Peer),
        (requestMissingSequences fuel c p).sent
          = (requestMissingSequences fuel c p).asked.map resendRequest)
    ∧ (∀ N : Int, (resendRequest N).map Fin.val = [2, (N % 256).toNat])
    ∧ (∀ N : Int, (((resendRequest N).getD 1 0).val : Int) = N ↔ (0 ≤ N ∧ N ≤ 255))
    ∧ (∀ N k : Int, resendRequest (N + 256 * k) = resendRequest N)
    ∧ (∀ (c : Client) (p : Peer) (r : Received), streamAllPackets c p = some r →
        r.sock.sent.map (fun q => q.map Fin.val) = [[1, 0]]) := by
  refine ⟨?_, ?_, ?_, ?_, ?_⟩
  · exact requestMissingSequences_sent
  · intro N
    rw [resendRequest_eq]
    rfl
  · intro N
    rw [resendRequest_eq]
    simp only [List.getD_cons_succ, List.getD_cons_zero]
    omega
  · intro N k
    rw [resendRequest_eq, resendRequest_eq]
    refine congrArg₂ _ rfl (congrArg₂ _ (Fin.ext ?_) rfl)
    simp only
    omega
  · intro c p r h
    unfold streamAllPackets at h
    by_cases hk : p.socketOk = true
    · by_cases hc : p.connectOk = true
      · simp only [hk, connectSocket, hc, if_true, Option.some.injEq] at h
        rw [← h, (receivePackets_sock _ _).2.1, (send_sent _ _).1]
        rfl
      · simp [hk, connectSocket, hc] at h
    · simp [hk] at h

/-- Witness for `request_bytes`: the stream-all request on a remote side that answers
nothing. -/
theorem request_bytes_witness :
    (receivePackets Client.init (send (newSock quietPeer) streamAllRequest).2).sock.sent.map
      (fun q => q.map Fin.val) = [[1, 0]] :=
  request_bytes.2.2.2.2 Client.init quietPeer
    (receivePackets Client.init (send (newSock quietPeer) streamAllRequest).2) rfl

/-- C10. When `send` fails for a missing sequence, the recovery loop stops at once: the
function returns with the client exactly as it was before that request and no further
buffer is handed to `send`. No call of `receivePackets` and no run of
`requestMissingSequences`, however far it gets, removes a key from the map. -/
theorem recovery_failure_isolated :
    (∀ (fuel : Nat) (i : Int) (c : Client) (s : Sock) (asked : List Int) (rest : List Bool),
        i ≤ c.m_maxSequence → (c.m_receivedPackets i).isNone → s.sendPlan = true :: rest →
        requestLoop (fuel + 1) i c s asked
          = ⟨c, { s with sendPlan := rest, sent := s.sent ++ [resendRequest i] },
              asked ++ [i], true⟩)
    ∧ (∀ (c : Client) (s : Sock) (k : Int), (c.m_receivedPackets k).isSome →
        ((receivePackets c s).client.m_receivedPackets k).isSome)
    ∧ (∀ (fuel : Nat) (c : Client) (p : Peer) (k : Int), (c.m_receivedPackets k).isSome →
        ((requestMissingSequences fuel c p).client.m_receivedPackets k).isSome) := by
  refine ⟨?_, receivePackets_present, ?_⟩
  · intro fuel i c s asked rest h1 h2 h3
    simp [requestLoop, h1, h2, send, h3]
  · intro fuel c p k h
    exact requestMissingSequences_keeps (fun c => (c.m_receivedPackets k).isSome)
      (fun c s hc => receivePackets_present c s k hc) fuel c p h

/-- Witness for `recovery_failure_isolated`: the keys 0, 1 and 3 are in the map, the
request for 2 fails. -/
theorem recovery_failure_isolated_witness :
    (requestLoop 1 2 gapClient failingSock []).finished = true
    ∧ (requestLoop 1 2 gapClient failingSock []).asked = [2]
    ∧ (requestLoop 1 2 gapClient failingSock []).sock.sent = [[2, 2]] := by
  rw [recovery_failure_isolated.1 0 2 gapClient failingSock [] [] (by decide) (by decide) rfl]
  exact ⟨rfl, rfl, rfl⟩

/-! ## The recovery loop on a well-behaved transport -/

theorem gapsFrom_mem (c : Client) : ∀ (n : Nat) (i j : Int),
    j ∈ gapsFrom c i n ↔ (i ≤ j ∧ j < i + n ∧ (c.m_receivedPackets j).isNone) := by
  intro n
  induction n with
  | zero => intro i j; simp [gapsFrom]; omega
  | succ n ih =>
    intro i j
    simp only [gapsFrom, List.mem_append, ih]
    by_cases h : (c.m_receivedPackets i).isNone = true
    · simp only [h, if_true, List.mem_singleton]
      constructor
      · rintro (rfl | ⟨h1, h2, h3⟩)
        · exact ⟨le_refl _, by push_cast; omega, h⟩
        · exact ⟨by omega, by push_cast; omega, h3⟩
      · rintro ⟨h1, h2, h3⟩
        by_cases hj : j = i
        · left; exact hj
        · right; exact ⟨by omega, by push_cast at h2; omega, h3⟩
    · have hf : (c.m_receivedPackets i).isNone = false := Bool.eq_false_iff.mpr h
      simp only [hf, Bool.false_eq_true, if_false, List.not_mem_nil, false_or]
      constructor
      · rintro ⟨h1, h2, h3⟩
        exact ⟨by omega, by push_cast; omega, h3⟩
      · rintro ⟨h1, h2, h3⟩
        have hj : j ≠ i := by rintro rfl; exact h h3
        exact ⟨by omega, by push_cast at h2; omega, h3⟩

theorem gapsFrom_sorted (c : Client) : ∀ (n : Nat) (i : Int),
    (gapsFrom c i n).Sorted (fun a b => a < b) := by
  intro n
  induction n with
  | zero => intro i; simp [gapsFrom]
  | succ n ih =>
    intro i
    simp only [gapsFrom]
    split_ifs
    · simp only [List.singleton_append, List.sorted_cons]
      refine ⟨?_, ih (i + 1)⟩
      intro b hb
      have := (gapsFrom_mem c n (i + 1) b).mp hb
      omega
    · simpa using ih (i + 1)

theorem gapsFrom_congr (c d : Client) : ∀ (n : Nat) (i : Int),
    (∀ j, i ≤ j → (d.m_receivedPackets j).isNone = (c.m_receivedPackets j).isNone) →
    gapsFrom d i n = gapsFrom c i n := by
  intro n
  induction n with
  | zero => intro i _; rfl
  | succ n ih =>
    intro i h
    simp only [gapsFrom, h i (le_refl _), ih (i + 1) (fun j hj => h j (by omega))]

theorem wrapInt32_succ (i : Int) (h0 : 0 ≤ i) (h1 : i < 2147483647) :
    wrapInt32 (i + 1) = i + 1 := by
  unfold wrapInt32 toInt32
  split_ifs <;> omega

theorem send_ok (s : Sock) (request : List Byte) (h : true ∉ s.sendPlan) :
    send s request = (false, { s with sendPlan := s.sendPlan.tail
                                      pending := if s.ended then s.pending
                                                 else s.pending ++ s.server s.sent request
                                      sent := s.sent ++ [request] })
    ∧ true ∉ s.sendPlan.tail := by
  unfold send
  rcases hp : s.sendPlan with _ | ⟨b, rest⟩
  · simp
  · rcases b with _ | _
    · refine ⟨by simp, ?_⟩
      intro hmem; apply h; rw [hp]; exact List.mem_cons_of_mem _ (by simpa using hmem)
    · exfalso; apply h; rw [hp]; simp

theorem store_other (c : Client) (p : Packet) (k : Int) (h : k ≠ p.sequence) :
    (c.store p).m_receivedPackets k = c.m_receivedPackets k := by
  simp [Client.store, h]

theorem receivePackets_empty (c : Client) (s : Sock) (hc : none ∉ s.recvPlan)
    (hp : s.pending = []) :
    ∃ rest, none ∉ rest ∧ (receivePackets c s).client = c
      ∧ (receivePackets c s).sock = { s with recvPlan := rest, pending := [], ended := true } := by
  obtain ⟨rest, h1, h2⟩ := receivePackets_frames [] [] c s (by simp) (by decide)
    (by simpa using hp) hc
  exact ⟨rest, h1, by rw [h2]; rfl, by rw [h2]⟩

theorem receivePackets_one (c : Client) (s : Sock) (hc : none ∉ s.recvPlan)
    (hp : s.pending.length = PACKET_SIZE) :
    ∃ rest, none ∉ rest ∧ (receivePackets c s).client = c.store (parsePacket s.pending)
      ∧ (receivePackets c s).sock = { s with recvPlan := rest, pending := [], ended := true } := by
  obtain ⟨rest, h1, h2⟩ := receivePackets_frames [s.pending] [] c s
    (by simpa using hp) (by decide) (by simp) hc
  exact ⟨rest, h1, by rw [h2]; rfl, by rw [h2]⟩

/-- The recovery loop on a socket on which `recv` has already returned `0`, with
`m_maxSequence` below `2^31 - 1` and no failing call: the loop ends, `send` is called for
every value of `[i, m_maxSequence]` missing from the map, and the client stays as it
was, since no request is answered any more. -/
theorem requestLoop_ended : ∀ (n fuel : Nat) (i : Int) (c : Client) (s : Sock)
    (asked : List Int),
    0 ≤ i → c.m_maxSequence < 2147483647 → (c.m_maxSequence + 1 - i).toNat = n → n < fuel →
    s.pending = [] → s.ended = true → true ∉ s.sendPlan → none ∉ s.recvPlan →
    (requestLoop fuel i c s asked).finished = true
    ∧ (requestLoop fuel i c s asked).client = c
    ∧ (requestLoop fuel i c s asked).asked = asked ++ gapsFrom c i n := by
  intro n
  induction n with
  | zero =>
    intro fuel i c s asked h0 hm hn hf hp he hsp hrp
    obtain ⟨fuel, rfl⟩ := Nat.exists_eq_succ_of_ne_zero (Nat.pos_iff_ne_zero.mp hf)
    have hgt : ¬ i ≤ c.m_maxSequence := by omega
    simp only [requestLoop, if_neg hgt, gapsFrom, List.append_nil, and_self]
  | succ n ih =>
    intro fuel i c s asked h0 hm hn hf hp he hsp hrp
    obtain ⟨fuel, rfl⟩ := Nat.exists_eq_succ_of_ne_zero
      (Nat.pos_iff_ne_zero.mp (by omega : 0 < fuel))
    have hle : i ≤ c.m_maxSequence := by omega
    have hw : wrapInt32 (i + 1) = i + 1 := wrapInt32_succ i h0 (by omega)
    by_cases hmiss : (c.m_receivedPackets i).isNone = true
    · obtain ⟨hsend, htail⟩ := send_ok s (resendRequest i) hsp
      simp only [he, if_true, hp] at hsend
      obtain ⟨rest, hrest, hcl, hsock⟩ := receivePackets_empty c
        { s with sendPlan := s.sendPlan.tail, pending := [],
                 sent := s.sent ++ [resendRequest i], ended := true } hrp rfl
      have hstep : requestLoop (fuel + 1) i c s asked
          = requestLoop fuel (i + 1) (receivePackets c
              { s with sendPlan := s.sendPlan.tail, pending := [],
                       sent := s.sent ++ [resendRequest i], ended := true }).client
              (receivePackets c
              { s with sendPlan := s.sendPlan.tail, pending := [],
                       sent := s.sent ++ [resendRequest i], ended := true }).sock (asked ++ [i]) := by
        simp only [requestLoop, if_pos hle, hmiss, if_true, hsend, hw]
      rw [hstep, hcl, hsock]
      obtain ⟨g1, g2, g3⟩ := ih fuel (i + 1) c
        { s with sendPlan := s.sendPlan.tail, recvPlan := rest, pending := [],
                 sent := s.sent ++ [resendRequest i], ended := true }
        (asked ++ [i]) (by omega) hm (by omega) (by omega) rfl rfl htail hrest
      refine ⟨g1, g2, ?_⟩
      rw [g3]
      simp [gapsFrom, hmiss]
    · have hf2 : (c.m_receivedPackets i).isNone = false := Bool.eq_false_iff.mpr hmiss
      have hstep : requestLoop (fuel + 1) i c s asked = requestLoop fuel (i + 1) c s asked := by
        simp only [requestLoop, if_pos hle, hf2, Bool.false_eq_true, if_false, hw]
      rw [hstep]
      obtain ⟨g1, g2, g3⟩ := ih fuel (i + 1) c s asked (by omega) hm (by omega) (by omega)
        hp he hsp hrp
      refine ⟨g1, g2, ?_⟩
      rw [g3]
      simp [gapsFrom, hf2]

/-- The recovery loop from counter value `i` on a fresh connection, with `m_maxSequence`
below `2^31 - 1`, no failing call, and a remote side that answers a request by at most
the record asked for: the loop ends, `m_maxSequence` is unchanged, `send` was called for
exactly the values of `[i, m_maxSequence]` missing from the map, in ascending order, and
the client has stored the answer to the first of these requests and nothing else: after
that answer the remote side has closed, and the later requests get none. -/
theorem requestLoop_recovers : ∀ (n fuel : Nat) (i : Int) (c : Client) (s : Sock)
    (asked : List Int),
    0 ≤ i → c.m_maxSequence < 2147483647 → (c.m_maxSequence + 1 - i).toNat = n → n < fuel →
    s.pending = [] → s.ended = false → true ∉ s.sendPlan → none ∉ s.recvPlan →
    (∀ j, i ≤ j → j ≤ c.m_maxSequence → (c.m_receivedPackets j).isNone →
      AnswersAtMost s.server j) →
    (requestLoop fuel i c s asked).finished = true
    ∧ (requestLoop fuel i c s asked).client.m_maxSequence = c.m_maxSequence
    ∧ (requestLoop fuel i c s asked).asked = asked ++ gapsFrom c i n
    ∧ (requestLoop fuel i c s asked).client = afterFirstAnswer c s (gapsFrom c i n) := by
  intro n
  induction n with
  | zero =>
    intro fuel i c s asked h0 hm hn hf hp he hsp hrp H
    obtain ⟨fuel, rfl⟩ := Nat.exists_eq_succ_of_ne_zero (Nat.pos_iff_ne_zero.mp hf)
    have hgt : ¬ i ≤ c.m_maxSequence := by omega
    simp only [requestLoop, if_neg hgt, gapsFrom, List.append_nil, afterFirstAnswer, and_self]
  | succ n ih =>
    intro fuel i c s asked h0 hm hn hf hp he hsp hrp H
    obtain ⟨fuel, rfl⟩ := Nat.exists_eq_succ_of_ne_zero
      (Nat.pos_iff_ne_zero.mp (by omega : 0 < fuel))
    have hle : i ≤ c.m_maxSequence := by omega
    have hw : wrapInt32 (i + 1) = i + 1 := wrapInt32_succ i h0 (by omega)
    by_cases hmiss : (c.m_receivedPackets i).isNone = true
    · obtain ⟨hsend, htail⟩ := send_ok s (resendRequest i) hsp
      simp only [he, Bool.false_eq_true, if_false, hp, List.nil_append] at hsend
      have hgaps : gapsFrom c i (n + 1) = i :: gapsFrom c (i + 1) n := by
        simp [gapsFrom, hmiss]
      have hstep : requestLoop (fuel + 1) i c s asked
          = requestLoop fuel (i + 1) (receivePackets c
              { s with sendPlan := s.sendPlan.tail
                       pending := s.server s.sent (resendRequest i)
                       sent := s.sent ++ [resendRequest i], ended := false }).client
              (receivePackets c
              { s with sendPlan := s.sendPlan.tail
                       pending := s.server s.sent (resendRequest i)
                       sent := s.sent ++ [resendRequest i], ended := false }).sock (asked ++ [i]) := by
        simp only [requestLoop, if_pos hle, hmiss, if_true, hsend, hw]
      rw [hstep, hgaps]
      rcases H i (le_refl _) hle hmiss s.sent with hans | ⟨hlen, hseq⟩
      · -- the answer is empty
        obtain ⟨rest, hrest, hcl, hsock⟩ := receivePackets_empty c
          { s with sendPlan := s.sendPlan.tail
                   pending := s.server s.sent (resendRequest i)
                   sent := s.sent ++ [resendRequest i], ended := false } hrp hans
        rw [hcl, hsock]
        obtain ⟨g1, g2, g3⟩ := requestLoop_ended n fuel (i + 1) c
          { s with sendPlan := s.sendPlan.tail, recvPlan := rest, pending := [],
                   sent := s.sent ++ [resendRequest i], ended := true }
          (asked ++ [i]) (by omega) hm (by omega) (by omega) rfl rfl htail hrest
        refine ⟨g1, by rw [g2], ?_, ?_⟩
        · rw [g3]; simp
        · rw [g2]; simp [afterFirstAnswer, hans]
      · -- the answer is the record of sequence `i`
        obtain ⟨rest, hrest, hcl, hsock⟩ := receivePackets_one c
          { s with sendPlan := s.sendPlan.tail
                   pending := s.server s.sent (resendRequest i)
                   sent := s.sent ++ [resendRequest i], ended := false } hrp hlen
        simp only at hcl
        rw [hcl, hsock]
        have hmax : (c.store (parsePacket (s.server s.sent (resendRequest i)))).m_maxSequence
            = c.m_maxSequence := by
          simp only [Client.store, hseq]; exact max_eq_left hle
        have hne : s.server s.sent (resendRequest i) ≠ [] := by
          intro h0; rw [h0] at hlen; simp [PACKET_SIZE] at hlen
        obtain ⟨g1, g2, g3⟩ := requestLoop_ended n fuel (i + 1)
          (c.store (parsePacket (s.server s.sent (resendRequest i))))
          { s with sendPlan := s.sendPlan.tail, recvPlan := rest, pending := [],
                   sent := s.sent ++ [resendRequest i], ended := true }
          (asked ++ [i]) (by omega) (by rw [hmax]; exact hm) (by rw [hmax]; omega) (by omega)
          rfl rfl htail hrest
        refine ⟨g1, by rw [g2, hmax], ?_, ?_⟩
        · rw [g3, gapsFrom_congr c _ n (i + 1)
            (fun j hj => by rw [store_other c _ j (by rw [hseq]; omega)])]
          simp
        · rw [g2]; simp [afterFirstAnswer, hne]
    · have hf2 : (c.m_receivedPackets i).isNone = false := Bool.eq_false_iff.mpr hmiss
      have hstep : requestLoop (fuel + 1) i c s asked = requestLoop fuel (i + 1) c s asked := by
        simp only [requestLoop, if_pos hle, hf2, Bool.false_eq_true, if_false, hw]
      have hgaps : gapsFrom c i (n + 1) = gapsFrom c (i + 1) n := by
        simp [gapsFrom, hf2]
      rw [hstep, hgaps]
      exact ih fuel (i + 1) c s asked (by omega) hm (by omega) (by omega) hp he hsp hrp
        (fun j h1 h2 h3 => H j (by omega) h2 h3)

/-- The requests of `requestMissingSequences` when `m_maxSequence` is below `2^31 - 1`,
the connection is made, no call fails and the remote side answers each request by at
most the record asked for: the function returns, and `send` was called for exactly the
integers of `[0, m_maxSequence]` that are not keys of the map, in strictly ascending
order (hence each once). -/
theorem requestMissingSequences_requests (fuel : Nat) (c : Client) (p : Peer)
    (hsock : p.socketOk = true) (hconn : p.connectOk = true) (hsp : true ∉ p.sendPlan)
    (hrp : none ∉ p.recvPlan)
    (hm : c.m_maxSequence < 2147483647) (hfuel : (c.m_maxSequence + 1).toNat < fuel)
    (H : ∀ j, 0 ≤ j → j ≤ c.m_maxSequence → (c.m_receivedPackets j).isNone →
      AnswersAtMost p.server j) :
    (requestMissingSequences fuel c p).finished = true
    ∧ (requestMissingSequences fuel c p).asked.Sorted (fun a b => a < b)
    ∧ (∀ n, n ∈ (requestMissingSequences fuel c p).asked
        ↔ (0 ≤ n ∧ n ≤ c.m_maxSequence ∧ (c.m_receivedPackets n).isNone))
    ∧ (requestMissingSequences fuel c p).sent
        = (requestMissingSequences fuel c p).asked.map resendRequest
    ∧ (requestMissingSequences fuel c p).client.m_maxSequence = c.m_maxSequence := by
  have hsent := requestMissingSequences_sent fuel c p
  obtain ⟨g1, g2, g3, _⟩ := requestLoop_recovers (c.m_maxSequence + 1).toNat fuel 0 c
    (newSock p) [] (le_refl _) hm (by simp) hfuel rfl rfl hsp hrp H
  have e : requestMissingSequences fuel c p
      = ⟨(requestLoop fuel 0 c (newSock p) []).client,
          (requestLoop fuel 0 c (newSock p) []).sock.sent,
          (requestLoop fuel 0 c (newSock p) []).asked,
          (requestLoop fuel 0 c (newSock p) []).finished, false⟩ := by
    simp [requestMissingSequences, connectSocket, hsock, hconn]
  rw [e] at hsent ⊢
  simp only at hsent ⊢
  refine ⟨g1, ?_, ?_, hsent, g2⟩
  · rw [g3]; simpa using gapsFrom_sorted c _ 0
  · intro n
    rw [g3, List.nil_append, gapsFrom_mem]
    constructor
    · rintro ⟨h1, h2, h3⟩
      refine ⟨h1, ?_, h3⟩
      omega
    · rintro ⟨h1, h2, h3⟩
      refine ⟨h1, ?_, h3⟩
      omega

/-- On the empty store (`m_maxSequence = -1`) the recovery loop hands nothing to `send`. -/
theorem requestMissingSequences_init (fuel : Nat) (p : Peer) :
    (requestMissingSequences (fuel + 1) Client.init p).sent = []
    ∧ (requestMissingSequences (fuel + 1) Client.init p).asked = [] := by
  unfold requestMissingSequences connectSocket
  by_cases hk : p.socketOk = true <;> by_cases h : p.connectOk = true <;>
    simp [hk, h, requestLoop, Client.init, newSock]

/-- With the keys 0, 1 and 3 in the map (`m_maxSequence = 3`) and a remote side that
answers nothing, `send` is called once, with the request `[2, 2]`. -/
theorem requestMissingSequences_gap :
    (requestMissingSequences 5 gapClient quietPeer).asked = [2]
    ∧ (requestMissingSequences 5 gapClient quietPeer).sent = [[2, 2]] := by
  decide

/-! ## The loop counter at `m_maxSequence = 2^31 - 1` -/

theorem toInt32_range (n : Nat) : -2147483648 ≤ toInt32 n ∧ toInt32 n ≤ 2147483647 := by
  unfold toInt32
  split_ifs <;> omega

theorem foldl_store_top (ps : List Packet) : ∀ (c : Client),
    (∀ p ∈ ps, p.sequence ≤ 2147483647) → c.m_maxSequence = 2147483647 →
    (ps.foldl Client.store c).m_maxSequence = 2147483647 := by
  induction ps with
  | nil => intro c _ h; exact h
  | cons p ps ih =>
    intro c hp h
    refine ih (c.store p) (fun q hq => hp q (List.mem_cons_of_mem _ hq)) ?_
    simp only [Client.store, h]
    exact max_eq_left (hp p (List.mem_cons_self _ _))

theorem receivePackets_top (c : Client) (s : Sock) (h : c.m_maxSequence = 2147483647) :
    (receivePackets c s).client.m_maxSequence = 2147483647 := by
  obtain ⟨ps, _, h2, h3, _⟩ := receiveLoop_general (s.pending.length + 1) [] c s []
  unfold receivePackets
  rw [h2]
  refine foldl_store_top ps c ?_ h
  intro p hp
  obtain ⟨b, rfl⟩ := h3 p hp
  exact (toInt32_range _).2

/-- With `m_maxSequence = 2^31 - 1` the test `i <= m_maxSequence` holds for every value of
the `int32_t` counter: as long as `send` does not fail, the loop is never left. -/
theorem requestLoop_never_ends : ∀ (fuel : Nat) (i : Int) (c : Client) (s : Sock)
    (asked : List Int), c.m_maxSequence = 2147483647 → s.sendPlan = [] →
    i ≤ 2147483647 → (requestLoop fuel i c s asked).finished = false := by
  intro fuel
  induction fuel with
  | zero => intro i c s asked _ _ _; rfl
  | succ fuel ih =>
    intro i c s asked hc hs hi
    have hle : i ≤ c.m_maxSequence := by rw [hc]; exact hi
    have hw : wrapInt32 (i + 1) ≤ 2147483647 := (toInt32_range _).2
    unfold requestLoop
    by_cases hmiss : (c.m_receivedPackets i).isNone = true
    · simp only [if_pos hle, hmiss, if_true, send, hs, List.tail_nil]
      exact ih _ _ _ _ (receivePackets_top c _ hc)
        (by rw [(receivePackets_sock c _).2.2]) hw
    · simp only [if_pos hle, hmiss]
      exact ih _ c s asked hc hs hw

/-- A socket with nothing unread, no failure planned and a remote side that answers
nothing. -/
theorem receivePackets_quiet (c : Client) (s : Sock) (hp : s.pending = [])
    (hr : s.recvPlan = []) :
    (receivePackets c s).client = c
    ∧ (receivePackets c s).sock = { s with ended := true } := by
  simp [receivePackets, receiveLoop, recv, deliver, hp, hr]

/-- On such a socket, `n` passes of the recovery loop below the top of the `int32_t`
range call `send` for the missing counter values among `i, ..., i+n-1` and leave the
client as it was. -/
theorem requestLoop_quiet_passes : ∀ (n fuel : Nat) (i : Int) (c : Client) (s : Sock)
    (asked : List Int),
    s.pending = [] → s.sendPlan = [] → s.recvPlan = [] → (∀ log req, s.server log req = []) →
    0 ≤ i → i + n ≤ 2147483647 → i + n ≤ c.m_maxSequence + 1 →
    ∃ s1 : Sock, s1.pending = [] ∧ s1.sendPlan = [] ∧ s1.recvPlan = []
      ∧ (∀ log req, s1.server log req = [])
      ∧ requestLoop (fuel + n) i c s asked
          = requestLoop fuel (i + n) c s1 (asked ++ gapsFrom c i n) := by
  intro n
  induction n with
  | zero =>
    intro fuel i c s asked hp hs hr hq _ _ _
    exact ⟨s, hp, hs, hr, hq, by simp [gapsFrom]⟩
  | succ n ih =>
    intro fuel i c s asked hp hs hr hq h0 h1 h2
    have hle : i ≤ c.m_maxSequence := by push_cast at h2; omega
    have hw : wrapInt32 (i + 1) = i + 1 := wrapInt32_succ i h0 (by push_cast at h1; omega)
    by_cases hmiss : (c.m_receivedPackets i).isNone = true
    · have hsend : send s (resendRequest i)
          = (false, { s with sendPlan := [], pending := [],
                             sent := s.sent ++ [resendRequest i] }) := by
        simp [send, hs, hp, hq]
      obtain ⟨q1, q2⟩ := receivePackets_quiet c
        { s with sendPlan := [], pending := [], sent := s.sent ++ [resendRequest i] } rfl hr
      have hstep : requestLoop (fuel + (n + 1)) i c s asked
          = requestLoop (fuel + n) (i + 1) c
              { s with sendPlan := [], pending := [], sent := s.sent ++ [resendRequest i],
                       ended := true }
              (asked ++ [i]) := by
        rw [← Nat.add_assoc]
        simp only [requestLoop, if_pos hle, hmiss, if_true, hsend, hw, q1, q2]
      obtain ⟨s1, a1, a2, a3, a4, a5⟩ := ih fuel (i + 1) c
        { s with sendPlan := [], pending := [], sent := s.sent ++ [resendRequest i],
                 ended := true }
        (asked ++ [i]) rfl rfl hr hq (by omega) (by push_cast at h1 ⊢; omega)
        (by push_cast at h2 ⊢; omega)
      refine ⟨s1, a1, a2, a3, a4, ?_⟩
      rw [hstep, a5]
      simp only [gapsFrom, hmiss, if_true, List.append_assoc, List.singleton_append]
      congr 1
      push_cast
      ring
    · have hf2 : (c.m_receivedPackets i).isNone = false := Bool.eq_false_iff.mpr hmiss
      have hstep : requestLoop (fuel + (n + 1)) i c s asked
          = requestLoop (fuel + n) (i + 1) c s asked := by
        rw [← Nat.add_assoc]
        simp only [requestLoop, if_pos hle, hf2, Bool.false_eq_true, if_false, hw]
      obtain ⟨s1, a1, a2, a3, a4, a5⟩ := ih fuel (i + 1) c s asked hp hs hr hq (by omega)
        (by push_cast at h1 ⊢; omega) (by push_cast at h2 ⊢; omega)
      refine ⟨s1, a1, a2, a3, a4, ?_⟩
      rw [hstep, a5]
      simp only [gapsFrom, hf2, Bool.false_eq_true, if_false, List.nil_append]
      congr 1
      push_cast
      ring

theorem requestMissingSequences_top (fuel : Nat) :
    (requestMissingSequences fuel topClient quietPeer).asked
        = (requestLoop fuel 0 topClient (newSock quietPeer) []).asked
    ∧ (requestMissingSequences fuel topClient quietPeer).finished
        = (requestLoop fuel 0 topClient (newSock quietPeer) []).finished := by
  simp [requestMissingSequences, connectSocket, quietPeer]

theorem requestLoop_top_wraps (s : Sock) (L : List Int) (hs : s.sendPlan = []) :
    (requestLoop 2 2147483647 topClient s L).asked = L ++ [-2147483648] := by
  have hmax : topClient.m_maxSequence = 2147483647 := by decide
  have hp1 : (topClient.m_receivedPackets 2147483647).isNone = false := by decide
  have hp2 : (topClient.m_receivedPackets (-2147483648)).isNone = true := by decide
  have hw : wrapInt32 (2147483647 + 1) = -2147483648 := by decide
  simp only [requestLoop, hmax, le_refl, if_true, hp1, Bool.false_eq_true, if_false, hw,
    hp2, send, hs]
  simp

/-- C3 at `m_maxSequence = 2^31 - 1`. After a record whose sequence field is
`7F FF FF FF`, the map holds the key `2147483647`, which is also `m_maxSequence`. On a
remote side that never fails and answers every request with nothing,
`requestMissingSequences` does not return, whatever the number of passes allowed: the
counter wraps instead of exceeding the bound, and after `2147483647 + 2` passes `send` has
been called for the value `-2147483648`, which is not in `[0, m_maxSequence]`. -/
theorem recovery_counter_overflow :
    topClient.m_maxSequence = 2147483647
    ∧ (topClient.m_receivedPackets 2147483647).isSome
    ∧ (∀ j, AnswersAtMost quietPeer.server j)
    ∧ (¬ ∃ fuel, (requestMissingSequences fuel topClient quietPeer).finished = true)
    ∧ (-2147483648 : Int)
        ∈ (requestMissingSequences (2 + 2147483647) topClient quietPeer).asked := by
  have hmax : topClient.m_maxSequence = 2147483647 := by decide
  refine ⟨hmax, by decide, fun j log => Or.inl rfl, ?_, ?_⟩
  · rintro ⟨fuel, h⟩
    have h2 := requestLoop_never_ends fuel 0 topClient (newSock quietPeer) [] hmax rfl
      (by norm_num)
    rw [(requestMissingSequences_top fuel).2, h2] at h
    exact Bool.false_ne_true h
  · obtain ⟨s1, _, a2, _, _, a5⟩ := requestLoop_quiet_passes 2147483647 2 0 topClient
      (newSock quietPeer) [] rfl rfl rfl (fun _ _ => rfl) (le_refl _) (by norm_num)
      (by rw [hmax]; norm_num)
    have hi : (0 : Int) + ((2147483647 : Nat) : Int) = 2147483647 := by norm_num
    rw [hi] at a5
    rw [(requestMissingSequences_top _).1, a5, requestLoop_top_wraps s1 _ a2]
    exact List.mem_append_right _ (List.mem_singleton.mpr rfl)

/-! ## The export loop -/

theorem exportUpTo_succ (b : Nat) (c : Client) :
    exportUpTo (b + 1) c = exportUpTo b c ++ (c.m_receivedPackets ((b + 1 : Nat) : Int)).toList := by
  unfold exportUpTo
  rw [List.range_succ, List.filterMap_append]
  rfl

theorem exportUpTo_mem (b : Nat) (c : Client) (p : Packet) :
    p ∈ exportUpTo b c ↔ ∃ i : Nat, i ≤ b ∧ c.m_receivedPackets (i : Int) = some p := by
  unfold exportUpTo
  simp only [List.mem_filterMap, List.mem_range]
  constructor
  · rintro ⟨i, h1, h2⟩; exact ⟨i, by omega, h2⟩
  · rintro ⟨i, h1, h2⟩; exact ⟨i, by omega, h2⟩

theorem exportUpTo_seq_mem (b : Nat) (c : Client) (hw : c.WellKeyed) (k : Int) :
    k ∈ (exportUpTo b c).map Packet.sequence
      ↔ (0 ≤ k ∧ k ≤ b ∧ (c.m_receivedPackets k).isSome) := by
  simp only [List.mem_map, exportUpTo_mem]
  constructor
  · rintro ⟨p, ⟨i, h1, h2⟩, rfl⟩
    rw [hw _ _ h2]
    exact ⟨by omega, by omega, by rw [h2]; rfl⟩
  · rintro ⟨h1, h2, h3⟩
    obtain ⟨p, hp⟩ := Option.isSome_iff_exists.mp h3
    refine ⟨p, ⟨k.toNat, by omega, ?_⟩, hw _ _ hp⟩
    rw [Int.toNat_of_nonneg h1]
    exact hp

theorem exportUpTo_seq_sorted (c : Client) (hw : c.WellKeyed) : ∀ b : Nat,
    ((exportUpTo b c).map Packet.sequence).Sorted (fun x y => x < y) := by
  intro b
  induction b with
  | zero =>
    rcases h : c.m_receivedPackets 0 with _ | x <;>
      simp [exportUpTo, List.range_succ, List.filterMap_cons, h]
  | succ b ih =>
    rw [exportUpTo_succ, List.map_append]
    unfold List.Sorted at ih ⊢
    rw [List.pairwise_append]
    refine ⟨ih, ?_, ?_⟩
    · rcases c.m_receivedPackets ((b + 1 : Nat) : Int) with _ | x <;> simp
    · intro x hx y hy
      have h1 := (exportUpTo_seq_mem b c hw x).mp hx
      rcases h : c.m_receivedPackets ((b + 1 : Nat) : Int) with _ | p
      · rw [h] at hy; simp at hy
      · rw [h] at hy
        simp only [Option.toList_some, List.map_cons, List.map_nil, List.mem_singleton] at hy
        rw [hy, hw _ _ h]
        push_cast
        omega

theorem store_wellKeyed (c : Client) (p : Packet) (h : c.WellKeyed) : (c.store p).WellKeyed := by
  intro k q hq
  simp only [Client.store] at hq
  by_cases hk : k = p.sequence
  · rw [if_pos hk] at hq
    rw [hk, ← Option.some.inj hq]
  · rw [if_neg hk] at hq
    exact h k q hq

theorem foldl_store_wellKeyed (ps : List Packet) : ∀ (c : Client),
    c.WellKeyed → (ps.foldl Client.store c).WellKeyed := by
  induction ps with
  | nil => intro c h; exact h
  | cons p ps ih => intro c h; exact ih (c.store p) (store_wellKeyed c p h)

theorem receivePackets_wellKeyed (c : Client) (s : Sock) (h : c.WellKeyed) :
    (receivePackets c s).client.WellKeyed := by
  obtain ⟨ps, _, h2, _⟩ := receiveLoop_general (s.pending.length + 1) [] c s []
  unfold receivePackets
  rw [h2]
  exact foldl_store_wellKeyed ps c h

theorem init_wellKeyed : Client.init.WellKeyed := by
  intro k p h
  simp [Client.init] at h

/-- C6 (as stated) fails: with the keys `-5` and `100001` in the map, neither number is
among the exported sequence numbers, since the export loop runs over `0 .. 100000`. -/
theorem export_counterexample :
    (oddClient.m_receivedPackets (-5)).isSome
    ∧ (oddClient.m_receivedPackets 100001).isSome
    ∧ (-5 : Int) ∉ (outputToJsonFile oddClient).map Packet.sequence
    ∧ (100001 : Int) ∉ (outputToJsonFile oddClient).map Packet.sequence := by
  have hw : oddClient.WellKeyed := receivePackets_wellKeyed _ _ init_wellKeyed
  refine ⟨by decide, by decide, ?_, ?_⟩
  · intro h
    have := (exportUpTo_seq_mem 100000 oddClient hw (-5)).mp h
    omega
  · intro h
    have := (exportUpTo_seq_mem 100000 oddClient hw 100001).mp h
    omega

/-- C6 (amended). For every store whose packets sit under their own sequence numbers,
the sequence numbers of the packets built by the export loop are strictly ascending
(so without duplicates), each of them is a key of the map, and every key of the map
between 0 and 100000 is among them. -/
theorem export_sequences (c : Client) (hw : c.WellKeyed) :
    ((outputToJsonFile c).map Packet.sequence).Sorted (fun x y => x < y)
    ∧ ((outputToJsonFile c).map Packet.sequence).Nodup
    ∧ (∀ k ∈ (outputToJsonFile c).map Packet.sequence, (c.m_receivedPackets k).isSome)
    ∧ (∀ k : Int, 0 ≤ k → k ≤ 100000 → (c.m_receivedPackets k).isSome →
        k ∈ (outputToJsonFile c).map Packet.sequence) := by
  have hs := exportUpTo_seq_sorted c hw 100000
  refine ⟨hs, hs.nodup, ?_, ?_⟩
  · intro k hk
    exact ((exportUpTo_seq_mem 100000 c hw k).mp hk).2.2
  · intro k h0 h1 h2
    exact (exportUpTo_seq_mem 100000 c hw k).mpr ⟨h0, by exact_mod_cast h1, h2⟩

/-- Witness for `export_sequences`: the store with the keys 0, 1 and 3. -/
theorem export_sequences_witness :
    gapClient.WellKeyed
    ∧ ((outputToJsonFile gapClient).map Packet.sequence).Sorted (fun x y => x < y) :=
  ⟨receivePackets_wellKeyed _ _ init_wellKeyed,
    (export_sequences gapClient (receivePackets_wellKeyed _ _ init_wellKeyed)).1⟩

/-- The exported sequence numbers, exactly: the keys of the map that lie in
`0 .. 100000`. -/
theorem export_sequences_exact (c : Client) (hw : c.WellKeyed) (k : Int) :
    k ∈ (outputToJsonFile c).map Packet.sequence
      ↔ (0 ≤ k ∧ k ≤ 100000 ∧ (c.m_receivedPackets k).isSome) := by
  have h := exportUpTo_seq_mem 100000 c hw k
  simpa [outputToJsonFile] using h

theorem foldl_store_keys (ps : List Packet) : ∀ (c : Client) (k : Int),
    ((ps.foldl Client.store c).m_receivedPackets k).isSome
      ↔ ((c.m_receivedPackets k).isSome ∨ ∃ p ∈ ps, p.sequence = k) := by
  induction ps with
  | nil => intro c k; simp
  | cons p ps ih =>
    intro c k
    rw [List.foldl_cons, ih]
    simp only [Client.store, List.mem_cons, exists_eq_or_imp]
    by_cases h : k = p.sequence
    · simp [h]
    · have h2 : ¬ p.sequence = k := fun e => h e.symm
      simp [h, h2]

theorem sorted_lt_ext (l1 l2 : List Int) (h1 : l1.Sorted (fun x y => x < y))
    (h2 : l2.Sorted (fun x y => x < y)) (h : ∀ x, x ∈ l1 ↔ x ∈ l2) : l1 = l2 :=
  List.eq_of_perm_of_sorted ((List.perm_ext_iff_of_nodup h1.nodup h2.nodup).mpr h) h1 h2

/-! ## The session -/

theorem resendPeer_answers (plan : List (Option Nat)) (log : List (List Byte)) (N : Int)
    (h0 : 0 ≤ N) (h1 : N ≤ 255) :
    ((resendPeer plan).server log (resendRequest N)).length = PACKET_SIZE
    ∧ (parsePacket ((resendPeer plan).server log (resendRequest N))).sequence = N := by
  rw [resendRequest_eq]
  refine ⟨rfl, ?_⟩
  simp only [resendPeer, sampleFrame, parsePacket, ntohlAt, toInt32, List.getD_cons_succ,
    List.getD_cons_zero]
  simp only [Fin.val_zero, zero_mul, zero_add]
  split_ifs <;> omega

/-- The session on the transport of the end-to-end recovery: the first connection answers
the stream-all request with complete records whose sequences lie in `0 .. 255`, `M` being
the largest of them, and the second connection answers a resend request for `N`
(`0 ≤ N ≤ 255`) with a complete record of sequence `N`; both connections are made and no
call fails. The session ends and exports, in strictly ascending order, the sequences
received in the stream together with the smallest number of `0 .. M` missing from it,
and no other: all resend requests go out on one socket, and once the answer to the first
of them has been read up to end-of-data nothing more arrives on it. -/
theorem session_exports (frames : List (List Byte)) (p1 p2 : Peer) (M : Int) (fuel : Nat)
    (hf : ∀ f ∈ frames, f.length = PACKET_SIZE ∧ 0 ≤ (parsePacket f).sequence
      ∧ (parsePacket f).sequence ≤ 255)
    (hM : ∃ f ∈ frames, (parsePacket f).sequence = M)
    (hmax : ∀ f ∈ frames, (parsePacket f).sequence ≤ M)
    (h1k : p1.socketOk = true) (h1 : p1.connectOk = true) (h1s : true ∉ p1.sendPlan)
    (h1r : none ∉ p1.recvPlan)
    (h1a : p1.server [] streamAllRequest = frames.flatten)
    (h2k : p2.socketOk = true) (h2 : p2.connectOk = true) (h2s : true ∉ p2.sendPlan)
    (h2r : none ∉ p2.recvPlan)
    (h2a : ∀ (log : List (List Byte)) (N : Int), 0 ≤ N → N ≤ 255 →
      (p2.server log (resendRequest N)).length = PACKET_SIZE
      ∧ (parsePacket (p2.server log (resendRequest N))).sequence = N)
    (hfuel : M.toNat + 1 < fuel) :
    ∃ packets, ExecuteClient fuel p1 p2 = Outcome.exported packets
      ∧ (packets.map Packet.sequence).Sorted (fun x y => x < y)
      ∧ ∀ k, k ∈ packets.map Packet.sequence
          ↔ (k ∈ frames.map (fun f => (parsePacket f).sequence)
              ∨ (0 ≤ k ∧ k ≤ M ∧ k ∉ frames.map (fun f => (parsePacket f).sequence)
                  ∧ ∀ j, 0 ≤ j → j < k →
                      j ∈ frames.map (fun f => (parsePacket f).sequence))) := by
  -- the streaming phase
  obtain ⟨hsend, _⟩ := send_ok (newSock p1) streamAllRequest h1s
  obtain ⟨rest, _, hr1⟩ := receivePackets_frames frames [] Client.init
    (send (newSock p1) streamAllRequest).2 (fun f hf1 => (hf f hf1).1) (by decide)
    (by rw [hsend]; simp [newSock, h1a]) (by rw [hsend]; exact h1r)
  have hstream : streamAllPackets Client.init p1
      = some (receivePackets Client.init (send (newSock p1) streamAllRequest).2) := by
    simp [streamAllPackets, connectSocket, h1k, h1]
  have hc1 : (receivePackets Client.init (send (newSock p1) streamAllRequest).2).client
      = (frames.map parsePacket).foldl Client.store Client.init := by rw [hr1]
  generalize (receivePackets Client.init (send (newSock p1) streamAllRequest).2) = r1
    at hstream hc1
  have hkeys : ∀ k, (r1.client.m_receivedPackets k).isSome
      ↔ k ∈ frames.map (fun f => (parsePacket f).sequence) := by
    intro k
    rw [hc1, foldl_store_keys]
    simp [Client.init]
  have hnone : ∀ k, (r1.client.m_receivedPackets k).isNone
      ↔ k ∉ frames.map (fun f => (parsePacket f).sequence) := by
    intro k
    rw [← hkeys k]
    rcases r1.client.m_receivedPackets k with _ | x <;> simp
  have hS : ∀ k, k ∈ frames.map (fun f => (parsePacket f).sequence) → 0 ≤ k ∧ k ≤ M := by
    intro k hk
    obtain ⟨f, hf1, rfl⟩ := List.mem_map.mp hk
    exact ⟨(hf f hf1).2.1, hmax f hf1⟩
  have hw1 : r1.client.WellKeyed := by
    rw [hc1]; exact foldl_store_wellKeyed _ _ init_wellKeyed
  have ht1 : r1.client.MaxTracksKeys := by
    rw [hc1]
    exact foldl_store_maxTracksKeys _ _ ⟨le_refl _, by simp [Client.init], Or.inl rfl⟩
  obtain ⟨fM, hfM, hfMseq⟩ := hM
  have hMS : M ∈ frames.map (fun f => (parsePacket f).sequence) :=
    List.mem_map.mpr ⟨fM, hfM, hfMseq⟩
  have hM0 : 0 ≤ M := (hS M hMS).1
  have hM255 : M ≤ 255 := by rw [← hfMseq]; exact (hf fM hfM).2.2
  have hmax1 : r1.client.m_maxSequence = M := by
    obtain ⟨_, t2, t3⟩ := ht1
    have hle : M ≤ r1.client.m_maxSequence := t2 M ((hkeys M).mpr hMS)
    rcases t3 with t3 | t3
    · omega
    · have := (hS _ ((hkeys _).mp t3)).2
      omega
  -- the recovery phase
  have hans : ∀ j, 0 ≤ j → j ≤ r1.client.m_maxSequence → (r1.client.m_receivedPackets j).isNone →
      AnswersAtMost (newSock p2).server j := by
    intro j hj0 hj1 _ log
    right
    exact h2a log j hj0 (by omega)
  obtain ⟨g1, _, _, g4⟩ := requestLoop_recovers (r1.client.m_maxSequence + 1).toNat fuel 0
    r1.client (newSock p2) [] (le_refl _) (by omega) (by simp) (by rw [hmax1]; omega) rfl rfl
    h2s h2r hans
  have hw2 : (requestLoop fuel 0 r1.client (newSock p2) []).client.WellKeyed :=
    requestLoop_keeps Client.WellKeyed receivePackets_wellKeyed fuel 0 _ _ _ hw1
  have hrun : ExecuteClient fuel p1 p2
      = Outcome.exported (outputToJsonFile (requestLoop fuel 0 r1.client (newSock p2) []).client) := by
    simp [ExecuteClient, run, hstream, requestMissingSequences, connectSocket, h2k, h2, g1]
  refine ⟨_, hrun, exportUpTo_seq_sorted _ hw2 100000, ?_⟩
  have hgap : ∀ j, j ∈ gapsFrom r1.client 0 (r1.client.m_maxSequence + 1).toNat
      ↔ (0 ≤ j ∧ j ≤ M ∧ j ∉ frames.map (fun f => (parsePacket f).sequence)) := by
    intro j
    rw [gapsFrom_mem, hnone, hmax1]
    constructor
    · rintro ⟨a1, a2, a3⟩; exact ⟨a1, by omega, a3⟩
    · rintro ⟨a1, a2, a3⟩; exact ⟨a1, by omega, a3⟩
  have hsorted := gapsFrom_sorted r1.client (r1.client.m_maxSequence + 1).toNat 0
  -- the keys of the map after the recovery
  have hfinal : ∀ k, ((requestLoop fuel 0 r1.client (newSock p2) []).client.m_receivedPackets
      k).isSome
        ↔ (k ∈ frames.map (fun f => (parsePacket f).sequence)
            ∨ (0 ≤ k ∧ k ≤ M ∧ k ∉ frames.map (fun f => (parsePacket f).sequence)
                ∧ ∀ j, 0 ≤ j → j < k →
                    j ∈ frames.map (fun f => (parsePacket f).sequence))) := by
    intro k
    rw [g4]
    rcases hg : gapsFrom r1.client 0 (r1.client.m_maxSequence + 1).toNat with _ | ⟨g, more⟩
    · simp only [afterFirstAnswer]
      rw [hkeys]
      constructor
      · intro h; exact Or.inl h
      · rintro (h | ⟨a1, a2, a3, _⟩)
        · exact h
        · have := (hgap k).mpr ⟨a1, a2, a3⟩
          rw [hg] at this
          simp at this
    · rw [hg] at hgap hsorted
      have hgin := (hgap g).mp (List.mem_cons_self _ _)
      have hlt : ∀ j ∈ more, g < j := (List.sorted_cons.mp hsorted).1
      obtain ⟨hlen, hseq⟩ := h2a [] g hgin.1 (by omega)
      have hne : p2.server [] (resendRequest g) ≠ [] := by
        intro h0; rw [h0] at hlen; simp [PACKET_SIZE] at hlen
      simp only [afterFirstAnswer, newSock, hne, if_false]
      have hst : ((r1.client.store (parsePacket (p2.server [] (resendRequest g)))).m_receivedPackets
          k).isSome ↔ (k = g ∨ (r1.client.m_receivedPackets k).isSome) := by
        simp only [Client.store, hseq]
        by_cases hk : k = g
        · simp [hk]
        · simp [hk]
      rw [hst, hkeys]
      constructor
      · rintro (rfl | h)
        · right
          refine ⟨hgin.1, hgin.2.1, hgin.2.2, ?_⟩
          intro j hj0 hjk
          by_contra hj
          have hjm := (hgap j).mpr ⟨hj0, by omega, hj⟩
          rcases List.mem_cons.mp hjm with e | e
          · omega
          · have := hlt j e; omega
        · exact Or.inl h
      · rintro (h | ⟨a1, a2, a3, a4⟩)
        · exact Or.inr h
        · left
          have hkm := (hgap k).mpr ⟨a1, a2, a3⟩
          rcases List.mem_cons.mp hkm with e | e
          · exact e
          · exfalso
            exact hgin.2.2 (a4 g hgin.1 (hlt k e))
  -- the export
  intro k
  rw [outputToJsonFile, exportUpTo_seq_mem 100000 _ hw2 k, hfinal]
  constructor
  · rintro ⟨_, _, h⟩; exact h
  · intro h
    refine ⟨?_, ?_, h⟩
    · rcases h with h | h
      · exact (hS k h).1
      · exact h.1
    · have : k ≤ M := by
        rcases h with h | h
        · exact (hS k h).2
        · exact h.2.1
      push_cast
      omega

/-- The session recovers a single gap: on the same transport, when at most one number of
`0 .. M` is missing from the stream, the exported sequences are `0, 1, ..., M`. -/
theorem session_recovers_single_gap (frames : List (List Byte)) (p1 p2 : Peer) (M : Int)
    (fuel : Nat)
    (hf : ∀ f ∈ frames, f.length = PACKET_SIZE ∧ 0 ≤ (parsePacket f).sequence
      ∧ (parsePacket f).sequence ≤ 255)
    (hM : ∃ f ∈ frames, (parsePacket f).sequence = M)
    (hmax : ∀ f ∈ frames, (parsePacket f).sequence ≤ M)
    (hone : ∀ j1 j2 : Int, 0 ≤ j1 → j1 ≤ M →
      j1 ∉ frames.map (fun f => (parsePacket f).sequence) → 0 ≤ j2 → j2 ≤ M →
      j2 ∉ frames.map (fun f => (parsePacket f).sequence) → j1 = j2)
    (h1k : p1.socketOk = true) (h1 : p1.connectOk = true) (h1s : true ∉ p1.sendPlan)
    (h1r : none ∉ p1.recvPlan)
    (h1a : p1.server [] streamAllRequest = frames.flatten)
    (h2k : p2.socketOk = true) (h2 : p2.connectOk = true) (h2s : true ∉ p2.sendPlan)
    (h2r : none ∉ p2.recvPlan)
    (h2a : ∀ (log : List (List Byte)) (N : Int), 0 ≤ N → N ≤ 255 →
      (p2.server log (resendRequest N)).length = PACKET_SIZE
      ∧ (parsePacket (p2.server log (resendRequest N))).sequence = N)
    (hfuel : M.toNat + 1 < fuel) :
    ∃ packets, ExecuteClient fuel p1 p2 = Outcome.exported packets
      ∧ packets.map Packet.sequence
          = (List.range (M.toNat + 1)).map (fun n : Nat => (n : Int)) := by
  obtain ⟨packets, hrun, hsorted, hmem⟩ := session_exports frames p1 p2 M fuel hf hM hmax
    h1k h1 h1s h1r h1a h2k h2 h2s h2r h2a hfuel
  have hS : ∀ k, k ∈ frames.map (fun f => (parsePacket f).sequence) → 0 ≤ k ∧ k ≤ M := by
    intro k hk
    obtain ⟨f, hf1, rfl⟩ := List.mem_map.mp hk
    exact ⟨(hf f hf1).2.1, hmax f hf1⟩
  have hM0 : 0 ≤ M := by
    obtain ⟨fM, hfM, e⟩ := hM
    rw [← e]; exact (hf fM hfM).2.1
  refine ⟨packets, hrun, sorted_lt_ext _ _ hsorted ?_ ?_⟩
  · exact (List.pairwise_lt_range _).map _ (fun a b hab => by exact_mod_cast hab)
  · intro k
    rw [hmem]
    simp only [List.mem_map (f := fun n : Nat => (n : Int)), List.mem_range]
    constructor
    · intro h
      have hb : 0 ≤ k ∧ k ≤ M := by
        rcases h with h | h
        · exact hS k h
        · exact ⟨h.1, h.2.1⟩
      exact ⟨k.toNat, by omega, by omega⟩
    · rintro ⟨n, hn, rfl⟩
      by_cases hin : (n : Int) ∈ frames.map (fun f => (parsePacket f).sequence)
      · exact Or.inl hin
      · right
        refine ⟨by omega, by omega, hin, ?_⟩
        intro j hj0 hjn
        by_contra hj
        have := hone j n hj0 (by omega) hj (by omega) (by omega) hin
        omega

/-- The documented end-to-end case: the stream holds the records of sequences 0, 1 and 3,
the record of sequence 2 comes on request; the export has the sequences 0, 1, 2, 3. -/
theorem session_recovers_single_gap_example :
    ∃ packets,
      ExecuteClient 5
          (streamPeer (sampleFrame 0 0 0 0 ++ sampleFrame 0 0 0 1 ++ sampleFrame 0 0 0 3)
            [some 7, some 30])
          (resendPeer [some 3]) = Outcome.exported packets
      ∧ packets.map Packet.sequence = [0, 1, 2, 3] := by
  have hS : [sampleFrame 0 0 0 0, sampleFrame 0 0 0 1, sampleFrame 0 0 0 3].map
      (fun f => (parsePacket f).sequence) = [0, 1, 3] := by decide
  exact session_recovers_single_gap
    [sampleFrame 0 0 0 0, sampleFrame 0 0 0 1, sampleFrame 0 0 0 3]
    (streamPeer (sampleFrame 0 0 0 0 ++ sampleFrame 0 0 0 1 ++ sampleFrame 0 0 0 3)
      [some 7, some 30])
    (resendPeer [some 3]) 3 5 (by decide) (by decide) (by decide)
    (by
      intro j1 j2 a1 a2 a3 b1 b2 b3
      rw [hS] at a3 b3
      simp only [List.mem_cons, List.mem_singleton, List.not_mem_nil, or_false, not_or] at a3 b3
      omega)
    rfl rfl (by decide) (by decide) rfl rfl rfl (by decide) (by decide)
    (resendPeer_answers [some 3]) (by decide)

/-- C4 fails on the code for a stream with two gaps. The first connection answers the
stream-all request with the records of sequences 0 and 3 and closes; the second answers
the resend request for `N` with the record of sequence `N` and closes. The session
exports the sequences 0, 1, 3: the request for 2 goes out on the socket on which the
answer to the request for 1 has been read up to end-of-data, and gets no answer. -/
theorem session_second_gap_lost :
    (∀ (log : List (List Byte)) (N : Int), 0 ≤ N → N ≤ 255 →
      ((resendPeer [some 3]).server log (resendRequest N)).length = PACKET_SIZE
      ∧ (parsePacket ((resendPeer [some 3]).server log (resendRequest N))).sequence = N)
    ∧ ∃ packets,
        ExecuteClient 5
          (streamPeer (sampleFrame 0 0 0 0 ++ sampleFrame 0 0 0 3) [some 7, some 30])
          (resendPeer [some 3]) = Outcome.exported packets
        ∧ packets.map Packet.sequence = [0, 1, 3] := by
  refine ⟨resendPeer_answers [some 3], ?_⟩
  have hS : [sampleFrame 0 0 0 0, sampleFrame 0 0 0 3].map
      (fun f => (parsePacket f).sequence) = [0, 3] := by decide
  obtain ⟨packets, hrun, hsorted, hmem⟩ := session_exports
    [sampleFrame 0 0 0 0, sampleFrame 0 0 0 3]
    (streamPeer (sampleFrame 0 0 0 0 ++ sampleFrame 0 0 0 3) [some 7, some 30])
    (resendPeer [some 3]) 3 5 (by decide) (by decide) (by decide)
    rfl rfl (by decide) (by decide) rfl rfl rfl (by decide) (by decide)
    (resendPeer_answers [some 3]) (by decide)
  refine ⟨packets, hrun, sorted_lt_ext _ _ hsorted (by decide) ?_⟩
  intro k
  rw [hmem, hS]
  simp only [List.mem_cons, List.mem_singleton, List.not_mem_nil, or_false, not_or]
  constructor
  · rintro (h | ⟨a1, a2, a3, a4⟩)
    · omega
    · by_contra hk
      have := a4 1 (by norm_num) (by omega)
      omega
  · intro h
    by_cases h1 : k = 1
    · right
      refine ⟨by omega, by omega, by omega, ?_⟩
      intro j hj0 hjk
      omega
    · left
      omega

end ABX
